import Mathlib

/-!
Verification of the `SearchCache` range cache and its helpers from
`custom_components/reolink_extras` (files `typings.py`, `util/search.py`,
`media_source.py`).

The Python data structures are shallowly embedded:

* `yearmonth` (typings.py) becomes `YM`; its ordinal arithmetic
  (`_toordinal` / `_fromordinal` / `__add__`) becomes `YM.ord`,
  `YM.fromOrd`, `YM.addMonths`.
* `datetime.date` / `datetime.time` / `datetime.datetime` become `Date`,
  `Nat` (time-of-day, any totally ordered value works) and `DT`;
  comparisons are the lexicographic comparisons Python uses.
* `SearchCache.OrderedDict` (a key list kept sorted via `bisect.insort`
  plus a backing `dict`) becomes `ODict`: a `keys : List K` plus an
  association list `items : List (K × V)` with Python-`dict` update
  semantics (replace in place when the key is present, append when new).
* `VOD_search_status` / `VOD_file` from `reolink_aio` are external
  collaborators; they are embedded from the interface the repository
  itself uses (see the repository's own `SearchStatus` class in
  `helpers/search.py`): a status is a `(year, month, days)` record that
  behaves as a `Sequence` of the dates of its days (hence an empty-day
  status is falsy in Python), a file carries a start instant plus an
  opaque payload.
-/

/-- Embeds `yearmonth` from typings.py: a year/month pair. -/
structure YM where
  year : Nat
  month : Nat
deriving DecidableEq, Repr

/-- Source: `yearmonth.__lt__` compares `(year, month)` tuples lexicographically. -/
def YM.ltb (a b : YM) : Bool :=
  decide (a.year < b.year) || (decide (a.year = b.year) && decide (a.month < b.month))

/-- Source: `yearmonth._toordinal`: `year * 12 + (month - 1)`. -/
def YM.ord (a : YM) : Nat := a.year * 12 + (a.month - 1)

/-- Source: `yearmonth._fromordinal`: `divmod(n, 12)` then month `n % 12 + 1`. -/
def YM.fromOrd (n : Nat) : YM := ⟨n / 12, n % 12 + 1⟩

/-- Source: `yearmonth.__add__ k`: ordinal arithmetic (the overflow guard of the
source never fires inside `MINYEAR..MAXYEAR` and is dropped for `Nat`). -/
def YM.addMonths (a : YM) (k : Nat) : YM := YM.fromOrd (a.ord + k)

/-- Embeds `_nextmonth` from util/search.py, token for token: the Python
expression `(month + 1 % 12) + 1` parses as `(month + (1 % 12)) + 1`
(`%` binds tighter than `+` in Python exactly as in Lean). -/
def nextmonth (year month : Nat) : Nat × Nat :=
  (if month > 11 then year + 1 else year, (month + 1 % 12) + 1)

/-- Embeds `datetime.date`: comparisons are lexicographic on (y, m, d). -/
structure Date where
  y : Nat
  m : Nat
  d : Nat
deriving DecidableEq, Repr

def Date.ltb (a b : Date) : Bool :=
  decide (a.y < b.y) ||
    (decide (a.y = b.y) &&
      (decide (a.m < b.m) || (decide (a.m = b.m) && decide (a.d < b.d))))

/-- Python `a <= b` on dates (total order): `¬ (b < a)`. -/
def Date.leb (a b : Date) : Bool := !Date.ltb b a

/-- Source: `datetime.time.__lt__` reduced to the embedded time-of-day value. -/
def natLtb (a b : Nat) : Bool := decide (a < b)

/-- Embeds `datetime.datetime` as a date plus a time-of-day. -/
structure DT where
  date : Date
  time : Nat
deriving DecidableEq, Repr

def DT.ltb (a b : DT) : Bool :=
  Date.ltb a.date b.date || (decide (a.date = b.date) && decide (a.time < b.time))

/-- Source: `yearmonth.fromdate`. -/
def YM.fromDate (d : Date) : YM := ⟨d.y, d.m⟩

/-- Source: `yearmonth.date(day)` for `day ≥ 0`: `date(year, month, day)`. -/
def YM.toDate (a : YM) (day : Nat) : Date := ⟨a.year, a.month, day⟩

/-- Python `max(a, b)` on yearmonth values: `b` when `a < b`, else `a`. -/
def YM.maxYM (a b : YM) : YM := if YM.ltb a b then b else a

/-- Python `min(a, b)` on yearmonth values: `b` when `b < a`, else `a`. -/
def YM.minYM (a b : YM) : YM := if YM.ltb b a then b else a

theorem nextmonth_eval :
    nextmonth 2024 1 = (2024, 3) ∧ nextmonth 2024 11 = (2024, 13) ∧
      nextmonth 2024 12 = (2025, 14) := by
  decide

theorem ymAdd_eval :
    YM.addMonths ⟨2024, 1⟩ 1 = ⟨2024, 2⟩ ∧ YM.addMonths ⟨2024, 12⟩ 1 = ⟨2025, 1⟩ := by
  decide

/-!
## Association-list primitives

`SearchCache.OrderedDict` keeps a key list `_keys` next to a backing
`dict` `_items`.  The `dict` is embedded as an association list with
Python `dict` update semantics: assignment replaces the value in place
when the key is present and appends a fresh pair otherwise; `pop`
removes the (unique) matching pair; nothing ever observes the pair
order except through `_keys`.
-/

/-- Source: `d[k]` lookup returning the first match. -/
def lookupA {K V : Type} [DecidableEq K] : List (K × V) → K → Option V
  | [], _ => none
  | (k1, v) :: rest, k => if k1 = k then some v else lookupA rest k

/-- Source: `d[k] = v`: replace in place when present, append when new. -/
def setA {K V : Type} [DecidableEq K] : List (K × V) → K → V → List (K × V)
  | [], k, v => [(k, v)]
  | (k1, v1) :: rest, k, v =>
    if k1 = k then (k, v) :: rest else (k1, v1) :: setA rest k v

/-- Source: `d.pop(k, None)` minus its return value: drop the first match. -/
def popA {K V : Type} [DecidableEq K] : List (K × V) → K → List (K × V)
  | [], _ => []
  | (k1, v1) :: rest, k => if k1 = k then rest else (k1, v1) :: popA rest k

/-- Source: `list.remove(x)`: drop the first occurrence (the source only calls it
when the element is present, so no error case is needed). -/
def rmFirst {K : Type} [DecidableEq K] : List K → K → List K
  | [], _ => []
  | x :: xs, k => if x = k then xs else x :: rmFirst xs k

/-- Source: `bisect.insort(l, k)` driven by `__lt__ = lt`: insert `k` before the
first element it is strictly less than (to the right of equals). -/
def insortBy {K : Type} (lt : K → K → Bool) (k : K) : List K → List K
  | [] => [k]
  | x :: xs => if lt k x then k :: x :: xs else x :: insortBy lt k xs

/-- Strict boolean chain: the key lists are sorted strictly ascending. -/
def sortedB {K : Type} (lt : K → K → Bool) : List K → Bool
  | [] => true
  | [_] => true
  | a :: b :: rest => lt a b && sortedB lt (b :: rest)

/-- Embeds `SearchCache.OrderedDict`: the `_keys` list plus the backing
`dict` `_items`. -/
structure ODict (K V : Type) where
  keys : List K
  items : List (K × V)
deriving DecidableEq, Repr

def ODict.empty {K V : Type} : ODict K V := ⟨[], []⟩

/-!
## The `reolink_aio` value types, as the repository uses them

`VOD_search_status` is used by this repository as a `Sequence` of the
dates of its present days (`len(status)`, `status[0]`, iteration in
`trim`, truthiness in `append`); the repository's own `SearchStatus`
class in helpers/search.py spells that interface out.  A Python
`Sequence` with `__len__` is falsy exactly when it is empty, which the
embedding records via `days = []`.  `VOD_file` is consumed only through
`start_time`; the payload field keeps distinct files distinguishable.
-/

/-- Embeds `VOD_search_status`: year, month and the parsed day table. -/
structure VStatus where
  year : Nat
  month : Nat
  days : List Nat
deriving DecidableEq, Repr

/-- Embeds `VOD_file`: its start instant plus the rest of the record. -/
structure VFile where
  start : DT
  payload : Nat
deriving DecidableEq, Repr

/-- Source: `yearmonth.fromstatus`. -/
def YM.fromStatus (s : VStatus) : YM := ⟨s.year, s.month⟩

/-- One element of a merge batch fed to `SearchCache.extend`. -/
inductive SItem where
  | status (s : VStatus)
  | file (f : VFile)
deriving DecidableEq, Repr

/-- Embeds `SearchCache` (typings.py): the two-level indices plus the two
boundary flags. -/
structure SearchCache where
  statuses : ODict YM VStatus
  files : ODict Date (ODict Nat VFile)
  at_start : Bool
  at_end : Bool
deriving DecidableEq, Repr

def SearchCache.empty : SearchCache := ⟨ODict.empty, ODict.empty, false, false⟩

/-- Source: `SearchCache._statuses_pop`: pop from the dict and, when something was
popped, remove the key from the key list. -/
def SearchCache.statusesPop (c : SearchCache) (k : YM) : Option VStatus × SearchCache :=
  match lookupA c.statuses.items k with
  | none => (none, c)
  | some s =>
      (some s,
        { c with statuses := ⟨rmFirst c.statuses.keys k, popA c.statuses.items k⟩ })

/-- Source: `SearchCache._del_item` on a plain `date` key (the `datetime` branch
is never taken by the operations the claims cover): pop the whole day.
Note the faithful quirk: `if not items.pop(__key, None): return` skips
`keys.remove` when the popped per-day dict was empty (falsy). -/
def SearchCache.delItem (c : SearchCache) (k : Date) : SearchCache :=
  match lookupA c.files.items k with
  | none => c
  | some inner =>
      if inner.items.isEmpty then
        { c with files := ⟨c.files.keys, popA c.files.items k⟩ }
      else
        { c with files := ⟨rmFirst c.files.keys k, popA c.files.items k⟩ }

/-- Delete, one after the other, the given days of month `k` (the purge
loops of `trim` and `append`; the day deletions commute, so the source's
set-iteration order is irrelevant). -/
def SearchCache.purgeDays (c : SearchCache) (k : YM) (days : List Nat) : SearchCache :=
  days.foldl (fun acc day => acc.delItem (k.toDate day)) c

/-- A key for `SearchCache.trim`: a `yearmonth` or a `date`. -/
inductive TrimKey where
  | ym (k : YM)
  | date (d : Date)
deriving DecidableEq, Repr

/-- Source: `SearchCache.trim`.  In the month branch the status is popped first;
when the popped status is falsy (empty day table) the purge loop is
skipped, and iterating a status yields the dates of its days. -/
def SearchCache.trim (c : SearchCache) : TrimKey → SearchCache
  | .ym k =>
      match c.statusesPop k with
      | (none, c1) => c1
      | (some s, c1) =>
          if s.days.isEmpty then c1
          else c1.purgeDays k s.days
  | .date d => c.delItem d

/-- Source: `SearchCache.append` on a `VOD_search_status`.  `if __status :=
statuses.get(__key)` is false both when the month is absent and when the
stored status has an empty day table (falsy `Sequence`); in both cases
the source runs `bisect.insort(keys, __key)` — even when the key is
already in the list.  The purge iterates `set(old) - set(new)`; the set
iteration order is unobservable (day deletions commute), the embedding
fixes the order of `old.days`. -/
def SearchCache.appendStatus (c : SearchCache) (s : VStatus) : SearchCache :=
  let k := YM.fromStatus s
  match lookupA c.statuses.items k with
  | some e =>
      if e.days.isEmpty then
        { c with statuses := ⟨insortBy YM.ltb k c.statuses.keys, setA c.statuses.items k s⟩ }
      else if e.days = s.days then c
      else
        let c1 := c.purgeDays k (e.days.filter (fun day => !s.days.contains day))
        { c1 with statuses := ⟨c1.statuses.keys, setA c1.statuses.items k s⟩ }
  | none =>
      { c with statuses := ⟨insortBy YM.ltb k c.statuses.keys, setA c.statuses.items k s⟩ }

/-- Source: `SearchCache.append` on a `VOD_file`: the date key is insorted only
when the date was absent from the dict (`setdefault` plus the `is`
check), the time key only when the time was absent from the per-day
dict. -/
def SearchCache.appendFile (c : SearchCache) (f : VFile) : SearchCache :=
  let d := f.start.date
  let t := f.start.time
  let inner := (lookupA c.files.items d).getD ODict.empty
  let fkeys :=
    if (lookupA c.files.items d).isSome then c.files.keys
    else insortBy Date.ltb d c.files.keys
  let ikeys :=
    if (lookupA inner.items t).isSome then inner.keys
    else insortBy natLtb t inner.keys
  { c with files := ⟨fkeys, setA c.files.items d ⟨ikeys, setA inner.items t f⟩⟩ }

/-- Source: `SearchCache.append`. -/
def SearchCache.append (c : SearchCache) : SItem → SearchCache
  | .status s => c.appendStatus s
  | .file f => c.appendFile f

/-- Source: `SearchCache.extend`: append every item of the batch in order (the
source flattens its iterable arguments; empty iterables are skipped,
which is the same as appending nothing). -/
def SearchCache.extend (c : SearchCache) (batch : List SItem) : SearchCache :=
  batch.foldl SearchCache.append c

/-- Source: `SearchCache.__getitem__` on a `datetime` key, with `Option` for the
`KeyError` path: `self.files[key.date()][key.time()]`. -/
def SearchCache.getDT (c : SearchCache) (k : DT) : Option VFile :=
  match lookupA c.files.items k.date with
  | none => none
  | some inner => lookupA inner.items k.time

/-- Source: `SearchCache.__len__`: `sum(map(len, self.files.values()))`, where
`values()` walks `_keys` and looks each key up. -/
def SearchCache.size (c : SearchCache) : Nat :=
  c.files.keys.foldl
    (fun acc d => acc + ((lookupA c.files.items d).getD ODict.empty).items.length) 0

/-!
## `SearchCache.slice`, instantiated at `datetime` bounds

The generator in typings.py walks months from
`max(keys[0], fromdate(start))` to `min(keys[-1], fromdate(end))`; with
`datetime` bounds both `start` and `end` keep their day and clock
components.  The control flow below is a statement-for-statement
transcription; in particular the second `if` of the day loop sets
`at_start = False` and thereby skips the `elif` that enforces the end
day.  `files.items()` iterates `_keys` and looks each key up (a missing
key would be a `KeyError`; the transcription skips it, and no claim
evaluates `slice` on a desynchronised cache).
-/

/-- The inner `for __time, __file in files.items()` loop. -/
def sliceTimes (atStart endDay : Bool) (startT endT : Nat)
    (items : List (Nat × VFile)) : List Nat → List VFile
  | [] => []
  | t :: ts =>
    match lookupA items t with
    | none => sliceTimes atStart endDay startT endT items ts
    | some f =>
      if atStart && decide (t < startT) then sliceTimes atStart endDay startT endT items ts
      else if endDay && decide (endT < t) then []
      else f :: sliceTimes atStart endDay startT endT items ts

/-- Yield the recordings of one present day (`files = self.files.get`,
`if not files: continue`, then the time loop). -/
def sliceOneDay (c : SearchCache) (ym endYm : YM) (atStart : Bool)
    (day : Nat) (endDayNo : Nat) (startT endT : Nat) : List VFile :=
  match lookupA c.files.items (ym.toDate day) with
  | none => []
  | some inner =>
      if inner.items.isEmpty then []
      else
        sliceTimes atStart (decide (ym = endYm) && decide (day = endDayNo))
          startT endT inner.items inner.keys

/-- The `for __date in status` day loop, threading the mutable
`at_start`. -/
def sliceDays (c : SearchCache) (ym endYm : YM) (startDayNo : Nat) (startT : Nat)
    (endDayNo : Nat) (endT : Nat) : Bool → List Nat → List VFile
  | _, [] => []
  | atStart, day :: rest =>
    if atStart && decide (day < startDayNo) then
      sliceDays c ym endYm startDayNo startT endDayNo endT atStart rest
    else if atStart && decide (startDayNo < day) then
      sliceOneDay c ym endYm false day endDayNo startT endT ++
        sliceDays c ym endYm startDayNo startT endDayNo endT false rest
    else if decide (ym = endYm) && decide (endDayNo < day) then []
    else
      sliceOneDay c ym endYm atStart day endDayNo startT endT ++
        sliceDays c ym endYm startDayNo startT endDayNo endT atStart rest

/-- The `while __ym <= end_ym` month loop; the fuel passed in covers the
whole month range, so running out of fuel coincides with the loop
condition turning false. -/
def sliceMonths (c : SearchCache) (endYm : YM) (startDayNo startT endDayNo endT : Nat) :
    Nat → YM → Bool → List VFile
  | 0, _, _ => []
  | fuel + 1, ym, atStart =>
    if YM.ltb endYm ym then []
    else
      (match lookupA c.statuses.items ym with
        | none => []
        | some st =>
            if st.days.isEmpty then []
            else sliceDays c ym endYm startDayNo startT endDayNo endT atStart st.days) ++
        sliceMonths c endYm startDayNo startT endDayNo endT fuel
          (YM.fromOrd (ym.ord + 1)) false

/-- Source: `SearchCache.slice(start, end)` with `datetime` bounds. -/
def SearchCache.sliceDT (c : SearchCache) (s e : DT) : List VFile :=
  match c.statuses.keys with
  | [] => []
  | k0 :: rest =>
      let klast := List.getLastD (k0 :: rest) k0
      let ym0 := YM.maxYM k0 (YM.fromDate s.date)
      let endYm := YM.minYM klast (YM.fromDate e.date)
      let atStart := Date.leb (ym0.toDate 1) s.date
      sliceMonths c endYm s.date.d s.time e.date.d e.time
        (endYm.ord + 1 - ym0.ord) ym0 atStart

/-!
## `SearchCache.__getitem__` on a Python `slice`

The source reads `self.slice(slice.start, slice.stop)` — `slice` there
is the *builtin type* (the parameter is named `__key`), so the bounds
passed are the builtin's `getset` descriptor attributes, never the
key's.  A descriptor is not `None`, and `yearmonth.fromdate` on it
raises `AttributeError` the moment the generator is iterated.
-/

/-- An argument reaching `slice`'s body through `__getitem__`: either a
real `datetime` or the builtin descriptor object. -/
inductive SliceArg where
  | val (d : DT)
  | descr
deriving DecidableEq, Repr

/-- Forcing the `slice` generator with possibly-descriptor bounds:
`len(statuses) < 1` still short-circuits to an empty yield, otherwise
`yearmonth.fromdate(start)` raises on a descriptor
(`Except.error` models the escaping `AttributeError`). -/
def sliceArgRun (c : SearchCache) (s e : SliceArg) : Except Unit (List VFile) :=
  if c.statuses.keys.isEmpty then .ok []
  else
    match s, e with
    | .val sv, .val ev => .ok (c.sliceDT sv ev)
    | _, _ => .error ()

/-- Source: `SearchCache.__getitem__` with a slice key `a:b`: the given bounds are
discarded and the builtin type's attributes are forwarded instead. -/
def SearchCache.getItemSlice (c : SearchCache) (_a _b : DT) : Except Unit (List VFile) :=
  sliceArgRun c .descr .descr

/-!
## Boundary discovery (media_source.py, `_browse_media`)

The backward walk: `while not cache.at_start: start -= 1; query start
status-only; on exception or an empty status table set `at_start = True`
and break, else merge and continue`.  The remote collaborator is a
function from month ordinal to a response; the walk also records which
months it queried.  Fuel bounds the loop (the source loop is unbounded
until year underflow); every claim is settled within the fuel.
-/

/-- One remote `request_vod_files(..., status_only=True)` outcome. -/
inductive RResp where
  | fail
  | ok (statuses : List VStatus)

/-- The backward boundary walk of `_browse_media`, started at month
ordinal `startOrd` (the earliest known month); returns the final cache
and the queried month ordinals in order. -/
def backWalk (oracle : Nat → RResp) : Nat → SearchCache → Nat → List Nat →
    SearchCache × List Nat
  | 0, c, _, qs => (c, qs)
  | fuel + 1, c, startOrd, qs =>
    if c.at_start then (c, qs)
    else
      let m := startOrd - 1
      match oracle m with
      | .fail => ({ c with at_start := true }, qs ++ [m])
      | .ok [] => ({ c with at_start := true }, qs ++ [m])
      | .ok statuses =>
          backWalk oracle fuel (c.extend (statuses.map SItem.status)) m (qs ++ [m])

/-!
## Iteration order (`__iter__` / `__reversed__`)
-/

/-- Recursive `flatMap`, kept local to control definitional unfolding. -/
def catMap {A B : Type} (f : A → List B) : List A → List B
  | [] => []
  | a :: l => f a ++ catMap f l

/-- Source: `SearchCache.__iter__`: `datetime.combine(date, time)` for each date
in `files._keys` and each time in that day's `_keys`. -/
def SearchCache.iterKeys (c : SearchCache) : List DT :=
  catMap
    (fun d =>
      match lookupA c.files.items d with
      | none => []
      | some inner => inner.keys.map (fun t => ⟨d, t⟩))
    c.files.keys

/-- Source: `SearchCache.__reversed__`: both levels walked backwards. -/
def SearchCache.revIterKeys (c : SearchCache) : List DT :=
  catMap
    (fun d =>
      match lookupA c.files.items d with
      | none => []
      | some inner => inner.keys.reverse.map (fun t => ⟨d, t⟩))
    c.files.keys.reverse

/-!
## Claim C8 and C10 and C4 and C1: directly evaluable facts
-/

/-- C8: the two calendar-successor computations must agree and produce the
immediately following month.  `yearmonth.__add__ 1` does
(`(2024,1)+1 = (2024,2)`, `(2024,12)+1 = (2025,1)`), but `_nextmonth`
computes `(month + (1 % 12)) + 1 = month + 2` thanks to Python operator
precedence: `_nextmonth(2024,1) = (2024,3)` and
`_nextmonth(2024,12) = (2025,14)`; for no valid month does `_nextmonth`
return the claimed successor. -/
theorem nextmonth_vs_ymadd :
    YM.addMonths ⟨2024, 1⟩ 1 = ⟨2024, 2⟩ ∧ YM.addMonths ⟨2024, 12⟩ 1 = ⟨2025, 1⟩ ∧
      nextmonth 2024 1 = (2024, 3) ∧ nextmonth 2024 12 = (2025, 14) ∧
      (∀ y m, 1 ≤ m → m ≤ 12 → nextmonth y m ≠ (y, m + 1) ∧ nextmonth y m ≠ (y + 1, 1)) := by
  refine ⟨by decide, by decide, by decide, by decide, ?_⟩
  intro y m h1 h2
  constructor <;> simp [nextmonth, Prod.ext_iff]

/-- Witness for the universally quantified part of `nextmonth_vs_ymadd`
at the concrete month 2024-05. -/
theorem nextmonth_vs_ymadd_wit :
    1 ≤ 5 ∧ 5 ≤ 12 ∧ nextmonth 2024 5 ≠ (2024, 6) ∧ nextmonth 2024 5 ≠ (2025, 1) := by
  refine ⟨by decide, by decide, ?_, ?_⟩
  · exact (nextmonth_vs_ymadd.2.2.2.2 2024 5 (by decide) (by decide)).1
  · exact (nextmonth_vs_ymadd.2.2.2.2 2024 5 (by decide) (by decide)).2

/-- C10: `cache[a:b]` ignores the given bounds (the source forwards the
builtin `slice` type's attributes): the result is independent of `a` and
`b`, yields nothing when no status is cached, and raises
(`AttributeError`, modelled as `Except.error`) the moment it is iterated
otherwise. -/
theorem getitem_slice_ignores_bounds (c : SearchCache) (a b a2 b2 : DT) :
    c.getItemSlice a b = c.getItemSlice a2 b2 ∧
      (c.statuses.keys = [] → c.getItemSlice a b = .ok []) ∧
      (c.statuses.keys ≠ [] → c.getItemSlice a b = .error ()) := by
  refine ⟨rfl, ?_, ?_⟩ <;> intro h <;>
    simp [SearchCache.getItemSlice, sliceArgRun, List.isEmpty_iff, h]

/-- Witness for `getitem_slice_ignores_bounds`: the empty cache yields
nothing for any bounds, a cache holding one status raises. -/
theorem getitem_slice_ignores_bounds_wit :
    SearchCache.empty.statuses.keys = [] ∧
      SearchCache.empty.getItemSlice ⟨⟨2024, 1, 1⟩, 0⟩ ⟨⟨2024, 2, 1⟩, 0⟩ = .ok [] ∧
      (SearchCache.empty.appendStatus ⟨2024, 1, [5]⟩).statuses.keys ≠ [] ∧
      (SearchCache.empty.appendStatus ⟨2024, 1, [5]⟩).getItemSlice
        ⟨⟨2024, 1, 1⟩, 0⟩ ⟨⟨2024, 2, 1⟩, 0⟩ = .error () := by
  refine ⟨rfl, ?_, by decide, ?_⟩
  · exact (getitem_slice_ignores_bounds SearchCache.empty ⟨⟨2024, 1, 1⟩, 0⟩ ⟨⟨2024, 2, 1⟩, 0⟩
      ⟨⟨2024, 1, 1⟩, 0⟩ ⟨⟨2024, 2, 1⟩, 0⟩).2.1 rfl
  · exact (getitem_slice_ignores_bounds (SearchCache.empty.appendStatus ⟨2024, 1, [5]⟩)
      ⟨⟨2024, 1, 1⟩, 0⟩ ⟨⟨2024, 2, 1⟩, 0⟩ ⟨⟨2024, 1, 1⟩, 0⟩ ⟨⟨2024, 2, 1⟩, 0⟩).2.2 (by decide)

/-- C4: when the backward walk's query for one month earlier fails or
returns an empty status table, `at_start` is set and exactly that one
month was queried (no earlier month); and `at_start = true` is terminal:
a walk entered with it set does nothing. -/
theorem backwalk_terminal (oracle : Nat → RResp) (c : SearchCache)
    (startOrd fuel : Nat) (qs : List Nat)
    (hempty : oracle (startOrd - 1) = .fail ∨ oracle (startOrd - 1) = .ok [])
    (hrun : c.at_start = false) (hfuel : 0 < fuel) :
    (backWalk oracle fuel c startOrd qs).1.at_start = true ∧
      (backWalk oracle fuel c startOrd qs).2 = qs ++ [startOrd - 1] ∧
      (∀ c2 fuel2 so2 qs2, c2.at_start = true →
        backWalk oracle fuel2 c2 so2 qs2 = (c2, qs2)) := by
  obtain ⟨n, rfl⟩ : ∃ n, fuel = n + 1 := ⟨fuel - 1, by omega⟩
  refine ⟨?_, ?_, ?_⟩
  · rcases hempty with h | h <;> simp [backWalk, hrun, h]
  · rcases hempty with h | h <;> simp [backWalk, hrun, h]
  · intro c2 fuel2 so2 qs2 h2
    cases fuel2 <;> simp [backWalk, h2]

/-- Witness for `backwalk_terminal`: walking back from 2024-01 (ordinal
24288) against a remote that reports an empty status table for 2023-12
sets `at_start` after exactly one query. -/
theorem backwalk_terminal_wit :
    ((fun _ => RResp.ok []) (24288 - 1) = RResp.fail ∨
        (fun _ => RResp.ok []) (24288 - 1) = RResp.ok []) ∧
      SearchCache.empty.at_start = false ∧ 0 < 5 ∧
      (backWalk (fun _ => RResp.ok []) 5 SearchCache.empty 24288 []).1.at_start = true ∧
      (backWalk (fun _ => RResp.ok []) 5 SearchCache.empty 24288 []).2 = [] ++ [24287] := by
  have h := backwalk_terminal (fun _ => RResp.ok []) SearchCache.empty 24288 5 []
    (Or.inr rfl) rfl (by decide)
  exact ⟨Or.inr rfl, rfl, by decide, h.1, h.2.1⟩

/-- C1: `slice` is not restricted to `[start, end)`.  On a cache holding
the status 2024-03 → days {1, 3} with one recording on 03-01 10:00 and
one on 03-03 00:16, `slice(2024-03-01T00:00, 2024-03-02T23:59:59)` also
yields the 03-03 recording, whose start lies at or after the end bound:
the day loop clears `at_start` on the first day past the start day and
thereby skips the `elif` that enforces the end day. -/
theorem slice_end_leak :
    (SearchCache.extend SearchCache.empty
          [.status ⟨2024, 3, [1, 3]⟩,
            .file ⟨⟨⟨2024, 3, 1⟩, 36000⟩, 1⟩,
            .file ⟨⟨⟨2024, 3, 3⟩, 1000⟩, 3⟩]).sliceDT
        ⟨⟨2024, 3, 1⟩, 0⟩ ⟨⟨2024, 3, 2⟩, 86399⟩ =
      [⟨⟨⟨2024, 3, 1⟩, 36000⟩, 1⟩, ⟨⟨⟨2024, 3, 3⟩, 1000⟩, 3⟩] ∧
      DT.ltb ⟨⟨2024, 3, 2⟩, 86399⟩ (⟨⟨⟨2024, 3, 3⟩, 1000⟩, 3⟩ : VFile).start = true := by
  decide

/-!
## Order facts for the embedded key orders
-/

theorem YM.ltb_iff (a b : YM) :
    YM.ltb a b = true ↔ a.year < b.year ∨ (a.year = b.year ∧ a.month < b.month) := by
  simp [YM.ltb]

theorem YM.ltb_irrefl (a : YM) : YM.ltb a a = false := by
  simp [YM.ltb]

theorem YM.ltb_trans {a b c : YM} (h1 : YM.ltb a b = true) (h2 : YM.ltb b c = true) :
    YM.ltb a c = true := by
  rw [YM.ltb_iff] at *
  omega

theorem YM.ltb_total {a b : YM} (h : a ≠ b) :
    YM.ltb a b = true ∨ YM.ltb b a = true := by
  rcases a with ⟨a1, a2⟩
  rcases b with ⟨b1, b2⟩
  simp [YM.mk.injEq] at h
  rw [YM.ltb_iff, YM.ltb_iff]
  by_cases h1 : a1 = b1
  · subst h1
    simp at h ⊢
    omega
  · simp
    omega

theorem dateLtb_iff (a b : Date) :
    Date.ltb a b = true ↔
      a.y < b.y ∨ (a.y = b.y ∧ (a.m < b.m ∨ (a.m = b.m ∧ a.d < b.d))) := by
  simp [Date.ltb]

theorem dateLtb_irrefl (a : Date) : Date.ltb a a = false := by
  simp [Date.ltb]

theorem dateLtb_trans2 {a b c : Date} (h1 : Date.ltb a b = true) (h2 : Date.ltb b c = true) :
    Date.ltb a c = true := by
  rw [dateLtb_iff] at *
  omega

theorem dateLtb_total2 {a b : Date} (h : a ≠ b) :
    Date.ltb a b = true ∨ Date.ltb b a = true := by
  rcases a with ⟨a1, a2, a3⟩
  rcases b with ⟨b1, b2, b3⟩
  simp [Date.mk.injEq] at h
  rw [dateLtb_iff, dateLtb_iff]
  simp
  by_cases h1 : a1 = b1
  · subst h1
    simp at h
    by_cases h2 : a2 = b2
    · subst h2
      simp at h ⊢
      omega
    · omega
  · omega

theorem natLtb_irrefl (a : Nat) : natLtb a a = false := by
  simp [natLtb]

theorem natLtb_trans {a b c : Nat} (h1 : natLtb a b = true) (h2 : natLtb b c = true) :
    natLtb a c = true := by
  simp [natLtb] at *
  omega

theorem natLtb_total {a b : Nat} (h : a ≠ b) :
    natLtb a b = true ∨ natLtb b a = true := by
  simp [natLtb]
  omega

theorem dtLtb_iff (a b : DT) :
    DT.ltb a b = true ↔
      Date.ltb a.date b.date = true ∨ (a.date = b.date ∧ a.time < b.time) := by
  simp [DT.ltb]

/-!
## Association-list and sorted-insert lemmas
-/

theorem lookupA_setA_self {K V : Type} [DecidableEq K] (l : List (K × V)) (k : K) (v : V) :
    lookupA (setA l k v) k = some v := by
  induction l with
  | nil => simp [setA, lookupA]
  | cons p rest ih =>
      by_cases h : p.1 = k
      · simp [setA, h, lookupA]
      · simp [setA, h, lookupA, ih]

theorem lookupA_setA_ne {K V : Type} [DecidableEq K] (l : List (K × V)) (k k2 : K) (v : V)
    (h : k2 ≠ k) : lookupA (setA l k v) k2 = lookupA l k2 := by
  induction l with
  | nil => simp [setA, lookupA, Ne.symm h]
  | cons p rest ih =>
      by_cases hp : p.1 = k
      · subst hp
        simp [setA, lookupA, Ne.symm h]
      · simp [setA, hp, lookupA, ih]

theorem setA_lookup_self {K V : Type} [DecidableEq K] {l : List (K × V)} {k : K} {v : V}
    (h : lookupA l k = some v) : setA l k v = l := by
  induction l with
  | nil => simp [lookupA] at h
  | cons p rest ih =>
      by_cases hp : p.1 = k
      · rcases p with ⟨p1, p2⟩
        simp_all [lookupA, setA]
      · simp [lookupA, hp] at h
        simp [setA, hp, ih h]

theorem lookupA_popA_ne {K V : Type} [DecidableEq K] (l : List (K × V)) (k k2 : K)
    (h : k2 ≠ k) : lookupA (popA l k) k2 = lookupA l k2 := by
  induction l with
  | nil => simp [popA]
  | cons p rest ih =>
      by_cases hp : p.1 = k
      · subst hp
        simp [popA, lookupA, Ne.symm h]
      · simp [popA, hp, lookupA, ih]

theorem lookupA_none_iff {K V : Type} [DecidableEq K] (l : List (K × V)) (k : K) :
    lookupA l k = none ↔ k ∉ l.map Prod.fst := by
  induction l with
  | nil => simp [lookupA]
  | cons p rest ih =>
      by_cases hp : p.1 = k
      · simp [lookupA, hp]
      · simp [lookupA, hp, ih, Ne.symm hp]

theorem lookupA_isSome_iff {K V : Type} [DecidableEq K] (l : List (K × V)) (k : K) :
    (lookupA l k).isSome = true ↔ k ∈ l.map Prod.fst := by
  induction l with
  | nil => simp [lookupA]
  | cons p rest ih =>
      by_cases hp : p.1 = k
      · simp [lookupA, hp]
      · simp [lookupA, hp, ih, Ne.symm hp]

theorem lookupA_popA_self {K V : Type} [DecidableEq K] (l : List (K × V)) (k : K)
    (h : (l.map Prod.fst).Nodup) : lookupA (popA l k) k = none := by
  induction l with
  | nil => simp [popA, lookupA]
  | cons p rest ih =>
      rw [List.map_cons, List.nodup_cons] at h
      by_cases hp : p.1 = k
      · subst hp
        simp [popA]
        rw [lookupA_none_iff]
        exact h.1
      · simp [popA, hp, lookupA, hp, ih h.2]

theorem popA_lookup_none {K V : Type} [DecidableEq K] {l : List (K × V)} {k : K}
    (h : lookupA l k = none) : popA l k = l := by
  induction l with
  | nil => simp [popA]
  | cons p rest ih =>
      by_cases hp : p.1 = k
      · simp [lookupA, hp] at h
      · simp [lookupA, hp] at h
        simp [popA, hp, ih h]

theorem mapFst_setA_isSome {K V : Type} [DecidableEq K] (l : List (K × V)) (k : K) (v : V)
    (h : (lookupA l k).isSome = true) : (setA l k v).map Prod.fst = l.map Prod.fst := by
  induction l with
  | nil => simp [lookupA] at h
  | cons p rest ih =>
      by_cases hp : p.1 = k
      · simp [setA, hp]
      · simp [lookupA, hp] at h
        simp [setA, hp, ih h]

theorem mapFst_setA_none {K V : Type} [DecidableEq K] (l : List (K × V)) (k : K) (v : V)
    (h : lookupA l k = none) : (setA l k v).map Prod.fst = l.map Prod.fst ++ [k] := by
  induction l with
  | nil => simp [setA]
  | cons p rest ih =>
      by_cases hp : p.1 = k
      · simp [lookupA, hp] at h
      · simp [lookupA, hp] at h
        simp [setA, hp, ih h]

theorem mapFst_popA {K V : Type} [DecidableEq K] (l : List (K × V)) (k : K) :
    (popA l k).map Prod.fst = rmFirst (l.map Prod.fst) k := by
  induction l with
  | nil => simp [popA, rmFirst]
  | cons p rest ih =>
      by_cases hp : p.1 = k
      · simp [popA, hp, rmFirst]
      · simp [popA, hp, rmFirst, ih]

theorem length_setA_isSome {K V : Type} [DecidableEq K] (l : List (K × V)) (k : K) (v : V)
    (h : (lookupA l k).isSome = true) : (setA l k v).length = l.length := by
  induction l with
  | nil => simp [lookupA] at h
  | cons p rest ih =>
      by_cases hp : p.1 = k
      · simp [setA, hp]
      · simp [lookupA, hp] at h
        simp [setA, hp, ih h]

theorem rmFirst_sublist {K : Type} [DecidableEq K] (l : List K) (k : K) :
    List.Sublist (rmFirst l k) l := by
  induction l with
  | nil => simp [rmFirst]
  | cons x xs ih =>
      by_cases hx : x = k
      · simp [rmFirst, hx]
      · simpa [rmFirst, hx] using List.Sublist.cons₂ x ih

theorem rmFirst_not_mem {K : Type} [DecidableEq K] {l : List K} {k : K} (h : k ∉ l) :
    rmFirst l k = l := by
  induction l with
  | nil => simp [rmFirst]
  | cons x xs ih =>
      rw [List.mem_cons] at h
      push_neg at h
      simp [rmFirst, Ne.symm h.1, ih h.2]

theorem not_mem_rmFirst_of_nodup {K : Type} [DecidableEq K] {l : List K} {k : K}
    (h : l.Nodup) : k ∉ rmFirst l k := by
  induction l with
  | nil => simp [rmFirst]
  | cons x xs ih =>
      rw [List.nodup_cons] at h
      by_cases hx : x = k
      · subst hx
        simpa [rmFirst] using h.1
      · simp [rmFirst, hx]
        exact ⟨fun he => hx he.symm, ih h.2⟩

theorem mem_rmFirst_ne {K : Type} [DecidableEq K] {l : List K} {k x : K} (h : x ≠ k) :
    x ∈ rmFirst l k ↔ x ∈ l := by
  induction l with
  | nil => simp [rmFirst]
  | cons y ys ih =>
      by_cases hy : y = k
      · subst hy
        simp [rmFirst, h]
      · simp [rmFirst, hy, ih]

theorem mem_insortBy {K : Type} (lt : K → K → Bool) (k x : K) (l : List K) :
    x ∈ insortBy lt k l ↔ x = k ∨ x ∈ l := by
  induction l with
  | nil => simp [insortBy]
  | cons y ys ih =>
      by_cases hy : lt k y = true
      · simp [insortBy, hy]
      · simp [insortBy, hy, ih]
        tauto

theorem length_insortBy {K : Type} (lt : K → K → Bool) (k : K) (l : List K) :
    (insortBy lt k l).length = l.length + 1 := by
  induction l with
  | nil => simp [insortBy]
  | cons y ys ih =>
      by_cases hy : lt k y = true
      · simp [insortBy, hy]
      · simp [insortBy, hy, ih]

/-- The pairwise (strictly ascending) reading of the key-list order. -/
def PwLt {K : Type} (lt : K → K → Bool) (l : List K) : Prop :=
  List.Pairwise (fun a b => lt a b = true) l

theorem sortedB_iff_pwlt {K : Type} (lt : K → K → Bool)
    (htrans : ∀ a b c, lt a b = true → lt b c = true → lt a c = true) (l : List K) :
    sortedB lt l = true ↔ PwLt lt l := by
  induction l with
  | nil => simp [sortedB, PwLt]
  | cons x xs ih =>
      cases xs with
      | nil => simp [sortedB, PwLt]
      | cons y ys =>
          rw [PwLt, List.pairwise_cons]
          constructor
          · intro h
            rw [sortedB, Bool.and_eq_true] at h
            have hpw := (ih.mp h.2)
            rw [PwLt, List.pairwise_cons] at hpw
            refine ⟨?_, (ih.mp h.2)⟩
            intro a ha
            rcases List.mem_cons.mp ha with rfl | ha2
            · exact h.1
            · exact htrans x y a h.1 (hpw.1 a ha2)
          · intro h
            rw [sortedB, Bool.and_eq_true]
            exact ⟨h.1 y (by simp), ih.mpr h.2⟩

theorem pwlt_insortBy {K : Type} (lt : K → K → Bool)
    (htrans : ∀ a b c, lt a b = true → lt b c = true → lt a c = true)
    (htotal : ∀ a b : K, a ≠ b → lt a b = true ∨ lt b a = true)
    {k : K} {l : List K} (hs : PwLt lt l) (hk : k ∉ l) :
    PwLt lt (insortBy lt k l) := by
  induction l with
  | nil => simp [insortBy, PwLt]
  | cons x xs ih =>
      rw [List.mem_cons] at hk
      push_neg at hk
      rw [PwLt, List.pairwise_cons] at hs
      by_cases hx : lt k x = true
      · rw [PwLt]
        simp only [insortBy, hx, if_pos]
        rw [List.pairwise_cons]
        refine ⟨?_, List.pairwise_cons.mpr hs⟩
        intro a ha
        rcases List.mem_cons.mp ha with rfl | ha2
        · exact hx
        · exact htrans k x a hx (hs.1 a ha2)
      · rw [PwLt]
        simp only [insortBy, hx, if_neg, Bool.false_eq_true, not_false_iff]
        rw [List.pairwise_cons]
        refine ⟨?_, ih hs.2 hk.2⟩
        intro a ha
        rcases (mem_insortBy lt k a xs).mp ha with rfl | ha2
        · rcases htotal x a (fun he => hk.1 he.symm) with h | h
          · exact h
          · exact absurd h hx
        · exact hs.1 a ha2

/-!
## The ordering invariant of the two-level indices
-/

/-- The ordering invariant of one `OrderedDict`: the key list is strictly
ascending, it lists exactly the keys present in the backing dict, and
the dict holds each key once. -/
def ODict.WF {K V : Type} [DecidableEq K] (lt : K → K → Bool) (d : ODict K V) : Prop :=
  sortedB lt d.keys = true ∧
    (∀ k ∈ d.keys, (lookupA d.items k).isSome = true) ∧
    (∀ p ∈ d.items, p.1 ∈ d.keys) ∧
    (d.items.map Prod.fst).Nodup

instance {K V : Type} [DecidableEq K] (lt : K → K → Bool) (d : ODict K V) :
    Decidable (ODict.WF lt d) := by
  unfold ODict.WF
  infer_instance

/-- The full cache invariant: both levels are well formed and no per-day
dict is empty. -/
def SearchCache.WFc (c : SearchCache) : Prop :=
  ODict.WF YM.ltb c.statuses ∧ ODict.WF Date.ltb c.files ∧
    ∀ p ∈ c.files.items, ODict.WF natLtb p.2 ∧ p.2.items ≠ []

instance (c : SearchCache) : Decidable (SearchCache.WFc c) := by
  unfold SearchCache.WFc
  infer_instance

theorem pwlt_nodup {K : Type} {lt : K → K → Bool}
    (hirr : ∀ a, lt a a = false) {l : List K} (h : PwLt lt l) : l.Nodup := by
  refine List.Pairwise.imp ?_ h
  intro a b hab
  intro he
  subst he
  rw [hirr a] at hab
  cases hab

/-!
## Observable (Python `__eq__`) equality of caches

`SearchCache.__eq__` compares `statuses` and `files`; each
`OrderedDict.__eq__` compares `_keys` by list equality and `_items` by
`dict` equality, which is extensional and order-insensitive; per-day
values inside `files` are themselves `OrderedDict`s compared the same
way.
-/

/-- Source: `OrderedDict.__eq__` with structurally comparable values. -/
def ODict.pyEqB {K V : Type} [DecidableEq K] [DecidableEq V] (d1 d2 : ODict K V) : Bool :=
  decide (d1.keys = d2.keys) && decide (d1.items.length = d2.items.length) &&
    d1.items.all (fun p => decide (lookupA d2.items p.1 = some p.2))

/-- Source: `OrderedDict.__eq__` on the outer file index (inner per-day dicts are
compared with their own `__eq__`). -/
def filesPyEqB (d1 d2 : ODict Date (ODict Nat VFile)) : Bool :=
  decide (d1.keys = d2.keys) && decide (d1.items.length = d2.items.length) &&
    d1.items.all (fun p =>
      match lookupA d2.items p.1 with
      | none => false
      | some inner => ODict.pyEqB p.2 inner)

/-- Source: `SearchCache.__eq__` (the two flags are not part of Python equality,
but every merge operation leaves them untouched anyway). -/
def SearchCache.pyEqB (c1 c2 : SearchCache) : Bool :=
  ODict.pyEqB c1.statuses c2.statuses && filesPyEqB c1.files c2.files

/-- Observable agreement between two optional per-day dicts: both absent,
or present with the same key list and the same lookups. -/
def innerRel (o1 o2 : Option (ODict Nat VFile)) : Prop :=
  match o1, o2 with
  | none, none => True
  | some i1, some i2 => i1.keys = i2.keys ∧ ∀ t, lookupA i1.items t = lookupA i2.items t
  | _, _ => False

/-- Observable agreement that ignores the (unobservable) key lists:
both absent, or present with the same lookups. -/
def innerLookRel (o1 o2 : Option (ODict Nat VFile)) : Prop :=
  match o1, o2 with
  | none, none => True
  | some i1, some i2 => ∀ t, lookupA i1.items t = lookupA i2.items t
  | _, _ => False

/-- The observable cache state as a proposition: same key lists, same
lookups (inner per-day dicts again compared observably), same flags. -/
def SearchCache.obsEq (c1 c2 : SearchCache) : Prop :=
  c1.statuses.keys = c2.statuses.keys ∧
    (∀ k, lookupA c1.statuses.items k = lookupA c2.statuses.items k) ∧
    c1.files.keys = c2.files.keys ∧
    (∀ d : Date, innerRel (lookupA c1.files.items d) (lookupA c2.files.items d)) ∧
    c1.at_start = c2.at_start ∧ c1.at_end = c2.at_end

/-!
## Effect lemmas for the cache operations
-/

theorem delItem_statuses (c : SearchCache) (k : Date) :
    (c.delItem k).statuses = c.statuses := by
  unfold SearchCache.delItem
  cases lookupA c.files.items k with
  | none => rfl
  | some inner =>
      by_cases h : inner.items.isEmpty <;> simp [h]

theorem delItem_at_start (c : SearchCache) (k : Date) :
    (c.delItem k).at_start = c.at_start := by
  unfold SearchCache.delItem
  cases lookupA c.files.items k with
  | none => rfl
  | some inner =>
      by_cases h : inner.items.isEmpty <;> simp [h]

theorem delItem_at_end (c : SearchCache) (k : Date) :
    (c.delItem k).at_end = c.at_end := by
  unfold SearchCache.delItem
  cases lookupA c.files.items k with
  | none => rfl
  | some inner =>
      by_cases h : inner.items.isEmpty <;> simp [h]

theorem delItem_files_items (c : SearchCache) (k : Date) :
    (c.delItem k).files.items = popA c.files.items k := by
  unfold SearchCache.delItem
  cases h : lookupA c.files.items k with
  | none => simp [popA_lookup_none h]
  | some inner =>
      by_cases he : inner.items.isEmpty <;> simp [he]

theorem lookupA_delItem_ne (c : SearchCache) (k d : Date) (h : d ≠ k) :
    lookupA (c.delItem k).files.items d = lookupA c.files.items d := by
  rw [delItem_files_items]
  exact lookupA_popA_ne _ _ _ h

theorem lookupA_delItem_self (c : SearchCache) (k : Date)
    (h : (c.files.items.map Prod.fst).Nodup) :
    lookupA (c.delItem k).files.items k = none := by
  rw [delItem_files_items]
  exact lookupA_popA_self _ _ h

theorem lookupA_delItem_none (c : SearchCache) (k d : Date)
    (h : lookupA c.files.items d = none) :
    lookupA (c.delItem k).files.items d = none := by
  rw [delItem_files_items]
  rw [lookupA_none_iff] at h ⊢
  rw [mapFst_popA]
  intro hmem
  exact h ((rmFirst_sublist _ _).mem hmem)

theorem delItem_nodup (c : SearchCache) (k : Date)
    (h : (c.files.items.map Prod.fst).Nodup) :
    ((c.delItem k).files.items.map Prod.fst).Nodup := by
  rw [delItem_files_items, mapFst_popA]
  exact h.sublist (rmFirst_sublist _ _)

theorem purgeDays_statuses (c : SearchCache) (k : YM) (days : List Nat) :
    (c.purgeDays k days).statuses = c.statuses := by
  induction days generalizing c with
  | nil => rfl
  | cons day rest ih =>
      unfold SearchCache.purgeDays at *
      simp only [List.foldl_cons]
      rw [ih, delItem_statuses]

theorem purgeDays_at_start (c : SearchCache) (k : YM) (days : List Nat) :
    (c.purgeDays k days).at_start = c.at_start := by
  induction days generalizing c with
  | nil => rfl
  | cons day rest ih =>
      unfold SearchCache.purgeDays at *
      simp only [List.foldl_cons]
      rw [ih, delItem_at_start]

theorem purgeDays_at_end (c : SearchCache) (k : YM) (days : List Nat) :
    (c.purgeDays k days).at_end = c.at_end := by
  induction days generalizing c with
  | nil => rfl
  | cons day rest ih =>
      unfold SearchCache.purgeDays at *
      simp only [List.foldl_cons]
      rw [ih, delItem_at_end]

theorem purgeDays_nodup (c : SearchCache) (k : YM) (days : List Nat)
    (h : (c.files.items.map Prod.fst).Nodup) :
    ((c.purgeDays k days).files.items.map Prod.fst).Nodup := by
  induction days generalizing c with
  | nil => exact h
  | cons day rest ih =>
      unfold SearchCache.purgeDays at *
      simp only [List.foldl_cons]
      exact ih _ (delItem_nodup _ _ h)

theorem lookupA_purgeDays_ne (c : SearchCache) (k : YM) (days : List Nat) (d : Date)
    (h : ∀ day ∈ days, k.toDate day ≠ d) :
    lookupA (c.purgeDays k days).files.items d = lookupA c.files.items d := by
  induction days generalizing c with
  | nil => rfl
  | cons day rest ih =>
      unfold SearchCache.purgeDays at *
      simp only [List.foldl_cons]
      rw [ih _ (fun x hx => h x (by simp [hx]))]
      exact lookupA_delItem_ne _ _ _ (fun he => h day (by simp) he.symm)

theorem lookupA_purgeDays_none (c : SearchCache) (k : YM) (days : List Nat) (d : Date)
    (h : lookupA c.files.items d = none) :
    lookupA (c.purgeDays k days).files.items d = none := by
  induction days generalizing c with
  | nil => exact h
  | cons day rest ih =>
      unfold SearchCache.purgeDays at *
      simp only [List.foldl_cons]
      exact ih _ (lookupA_delItem_none _ _ _ h)

theorem lookupA_purgeDays_self (c : SearchCache) (k : YM) (days : List Nat) (day0 : Nat)
    (hmem : day0 ∈ days) (h : (c.files.items.map Prod.fst).Nodup) :
    lookupA (c.purgeDays k days).files.items (k.toDate day0) = none := by
  induction days generalizing c with
  | nil => cases hmem
  | cons day rest ih =>
      unfold SearchCache.purgeDays at *
      simp only [List.foldl_cons]
      rcases List.mem_cons.mp hmem with rfl | hmem2
      · exact lookupA_purgeDays_none _ k rest _ (lookupA_delItem_self _ _ h)
      · exact ih _ hmem2 (delItem_nodup _ _ h)

/-!
## Claim C7: colliding start instants update in place
-/

/-- C7: appending a recording whose start collides with a cached one
replaces the entry at `(date(start), time(start))` (last write wins; the
`dict` assignment cannot raise) and leaves the total number of cached
entries (`__len__`) unchanged, while every other key still maps to what
it mapped to before. -/
theorem append_collision_lww (c : SearchCache) (f f0 : VFile)
    (h : c.getDT f.start = some f0) :
    (c.appendFile f).getDT f.start = some f ∧
      (c.appendFile f).size = c.size ∧
      ∀ k : DT, k ≠ f.start → (c.appendFile f).getDT k = c.getDT k := by
  rcases hd : lookupA c.files.items f.start.date with _ | inner
  · have h2 : (none : Option VFile) = some f0 := by
      rw [SearchCache.getDT, hd] at h
      exact h
    cases h2
  · have h2 : lookupA inner.items f.start.time = some f0 := by
      rw [SearchCache.getDT, hd] at h
      exact h
    have hsomeT : (lookupA inner.items f.start.time).isSome = true := by
      rw [h2]; rfl
    refine ⟨?_, ?_, ?_⟩
    · rw [SearchCache.getDT]
      simp only [SearchCache.appendFile, hd, Option.getD_some, hsomeT, Option.isSome_some,
        if_pos, if_true]
      rw [lookupA_setA_self]
      exact lookupA_setA_self _ _ _
    · unfold SearchCache.size
      simp only [SearchCache.appendFile, hd, Option.getD_some, hsomeT, Option.isSome_some,
        if_pos, if_true]
      refine List.foldl_ext _ _ _ ?_
      intro acc dd _
      by_cases hdd : dd = f.start.date
      · subst hdd
        rw [lookupA_setA_self, hd]
        simp [length_setA_isSome inner.items _ f hsomeT]
      · rw [lookupA_setA_ne _ _ _ _ hdd]
    · intro k hk
      rw [SearchCache.getDT, SearchCache.getDT]
      simp only [SearchCache.appendFile, hd, Option.getD_some, hsomeT, Option.isSome_some,
        if_pos, if_true]
      by_cases hkd : k.date = f.start.date
      · rw [hkd, lookupA_setA_self, hd]
        have hkt : k.time ≠ f.start.time := by
          intro he
          exact hk (by cases k; cases f.start; simp_all)
        exact lookupA_setA_ne _ _ _ _ hkt
      · rw [lookupA_setA_ne _ _ _ _ hkd]

/-- Witness for `append_collision_lww` at a concrete collision. -/
theorem append_collision_lww_wit :
    ((SearchCache.empty.appendFile ⟨⟨⟨2024, 1, 5⟩, 100⟩, 1⟩).getDT ⟨⟨2024, 1, 5⟩, 100⟩ =
        some ⟨⟨⟨2024, 1, 5⟩, 100⟩, 1⟩) ∧
      (((SearchCache.empty.appendFile ⟨⟨⟨2024, 1, 5⟩, 100⟩, 1⟩).appendFile
            ⟨⟨⟨2024, 1, 5⟩, 100⟩, 2⟩).getDT ⟨⟨2024, 1, 5⟩, 100⟩ =
          some ⟨⟨⟨2024, 1, 5⟩, 100⟩, 2⟩ ∧
        ((SearchCache.empty.appendFile ⟨⟨⟨2024, 1, 5⟩, 100⟩, 1⟩).appendFile
              ⟨⟨⟨2024, 1, 5⟩, 100⟩, 2⟩).size =
          (SearchCache.empty.appendFile ⟨⟨⟨2024, 1, 5⟩, 100⟩, 1⟩).size) := by
  have h := append_collision_lww (SearchCache.empty.appendFile ⟨⟨⟨2024, 1, 5⟩, 100⟩, 1⟩)
    ⟨⟨⟨2024, 1, 5⟩, 100⟩, 2⟩ ⟨⟨⟨2024, 1, 5⟩, 100⟩, 1⟩ (by decide)
  exact ⟨by decide, h.1, h.2.1⟩

/-!
## Claim C3: merge under a shrinking status
-/

/-- C3: when `append` replaces a month's stored status `e` by a status
`s` whose day set is contained in (and different from) `e`'s, afterwards
the stored status is `s`, every cached day entry on a removed day of
that month is gone, every entry on a retained day is untouched, file
entries of all other months are untouched, statuses of other months are
untouched, and the month key list is unchanged. -/
theorem status_shrink_purge (c : SearchCache) (s e : VStatus)
    (hlook : lookupA c.statuses.items (YM.fromStatus s) = some e)
    (hsub : ∀ x ∈ s.days, x ∈ e.days) (hne : e.days ≠ s.days)
    (hnodup : (c.files.items.map Prod.fst).Nodup) :
    lookupA (c.appendStatus s).statuses.items (YM.fromStatus s) = some s ∧
      (∀ day ∈ e.days, day ∉ s.days →
        lookupA (c.appendStatus s).files.items ((YM.fromStatus s).toDate day) = none) ∧
      (∀ day ∈ s.days,
        lookupA (c.appendStatus s).files.items ((YM.fromStatus s).toDate day) =
          lookupA c.files.items ((YM.fromStatus s).toDate day)) ∧
      (∀ d : Date, d.y ≠ s.year ∨ d.m ≠ s.month →
        lookupA (c.appendStatus s).files.items d = lookupA c.files.items d) ∧
      (∀ m : YM, m ≠ YM.fromStatus s →
        lookupA (c.appendStatus s).statuses.items m = lookupA c.statuses.items m) ∧
      (c.appendStatus s).statuses.keys = c.statuses.keys := by
  have hene : e.days.isEmpty = false := by
    rcases he : e.days with _ | _
    · rw [he] at hsub
      have : s.days = [] := by
        cases hs : s.days with
        | nil => rfl
        | cons a l => exact absurd (hsub a (by rw [hs]; simp)) (by simp)
      rw [he, this] at hne
      exact absurd rfl hne
    · rfl
  have happ :
      c.appendStatus s =
        { c.purgeDays (YM.fromStatus s) (e.days.filter (fun day => !s.days.contains day)) with
            statuses :=
              ⟨(c.purgeDays (YM.fromStatus s)
                    (e.days.filter (fun day => !s.days.contains day))).statuses.keys,
                setA (c.purgeDays (YM.fromStatus s)
                    (e.days.filter (fun day => !s.days.contains day))).statuses.items
                  (YM.fromStatus s) s⟩ } := by
    simp only [SearchCache.appendStatus, hlook, hene, Bool.false_eq_true, if_false,
      if_neg hne]
  refine ⟨?_, ?_, ?_, ?_, ?_, ?_⟩
  · rw [happ]
    exact lookupA_setA_self _ _ _
  · intro day hde hds
    rw [happ]
    show lookupA (SearchCache.purgeDays c _ _).files.items _ = none
    refine lookupA_purgeDays_self _ _ _ _ ?_ hnodup
    simp [List.mem_filter, hde, hds]
  · intro day hds
    rw [happ]
    show lookupA (SearchCache.purgeDays c _ _).files.items _ =
      lookupA c.files.items _
    refine lookupA_purgeDays_ne _ _ _ _ ?_
    intro day2 hday2 heq
    rw [List.mem_filter] at hday2
    have hne2 : day2 ≠ day := by
      intro he2
      subst he2
      simp at hday2
      exact hday2.2 hds
    exact hne2 (by
      have := congrArg Date.d heq
      simpa [YM.toDate] using this)
  · intro d hd
    rw [happ]
    show lookupA (SearchCache.purgeDays c _ _).files.items d = lookupA c.files.items d
    refine lookupA_purgeDays_ne _ _ _ _ ?_
    intro day2 _ heq
    rcases hd with hd | hd
    · exact hd (by
        have := congrArg Date.y heq
        simpa [YM.toDate, YM.fromStatus] using this.symm)
    · exact hd (by
        have := congrArg Date.m heq
        simpa [YM.toDate, YM.fromStatus] using this.symm)
  · intro m hm
    rw [happ]
    show lookupA (setA (SearchCache.purgeDays c _ _).statuses.items _ s) m =
      lookupA c.statuses.items m
    rw [lookupA_setA_ne _ _ _ _ hm, purgeDays_statuses]
  · rw [happ]
    show (SearchCache.purgeDays c _ _).statuses.keys = c.statuses.keys
    rw [purgeDays_statuses]

/-- Witness for `status_shrink_purge`: shrink 2024-03 from days {1,2,3}
to {2,3}; the recording cached on 03-01 disappears, the one on 03-02
stays. -/
theorem status_shrink_purge_wit :
    lookupA (SearchCache.extend SearchCache.empty
          [.status ⟨2024, 3, [1, 2, 3]⟩,
            .file ⟨⟨⟨2024, 3, 1⟩, 10⟩, 1⟩,
            .file ⟨⟨⟨2024, 3, 2⟩, 20⟩, 2⟩]).statuses.items
        (YM.fromStatus ⟨2024, 3, [2, 3]⟩) = some ⟨2024, 3, [1, 2, 3]⟩ ∧
      (∀ x ∈ [2, 3], x ∈ [1, 2, 3]) ∧ ([1, 2, 3] : List Nat) ≠ [2, 3] ∧
      lookupA ((SearchCache.extend SearchCache.empty
            [.status ⟨2024, 3, [1, 2, 3]⟩,
              .file ⟨⟨⟨2024, 3, 1⟩, 10⟩, 1⟩,
              .file ⟨⟨⟨2024, 3, 2⟩, 20⟩, 2⟩]).appendStatus
          ⟨2024, 3, [2, 3]⟩).files.items ⟨2024, 3, 1⟩ = none ∧
      lookupA ((SearchCache.extend SearchCache.empty
            [.status ⟨2024, 3, [1, 2, 3]⟩,
              .file ⟨⟨⟨2024, 3, 1⟩, 10⟩, 1⟩,
              .file ⟨⟨⟨2024, 3, 2⟩, 20⟩, 2⟩]).appendStatus
          ⟨2024, 3, [2, 3]⟩).files.items ⟨2024, 3, 2⟩ =
        lookupA (SearchCache.extend SearchCache.empty
            [.status ⟨2024, 3, [1, 2, 3]⟩,
              .file ⟨⟨⟨2024, 3, 1⟩, 10⟩, 1⟩,
              .file ⟨⟨⟨2024, 3, 2⟩, 20⟩, 2⟩]).files.items ⟨2024, 3, 2⟩ := by
  have h := status_shrink_purge
    (SearchCache.extend SearchCache.empty
      [.status ⟨2024, 3, [1, 2, 3]⟩,
        .file ⟨⟨⟨2024, 3, 1⟩, 10⟩, 1⟩,
        .file ⟨⟨⟨2024, 3, 2⟩, 20⟩, 2⟩])
    ⟨2024, 3, [2, 3]⟩ ⟨2024, 3, [1, 2, 3]⟩ (by decide) (by decide) (by decide) (by decide)
  exact ⟨by decide, by decide, by decide, h.2.1 1 (by decide) (by decide),
    h.2.2.1 2 (by decide)⟩

/-!
## Claim C6: trim
-/

/-- C6 counterexample: `trim(month)` does not remove every recording of
the month — a recording on a day the stored status does not list
survives.  Cache: status 2024-03 → {5}, plus a recording dated
2024-03-06 (appendable because `append` on files never consults the
statuses).  After `trim(2024-03)` the status is gone but the 03-06
recording is still cached. -/
theorem trim_month_unlisted_ce :
    lookupA ((SearchCache.extend SearchCache.empty
          [.file ⟨⟨⟨2024, 3, 6⟩, 0⟩, 1⟩, .status ⟨2024, 3, [5]⟩]).trim
        (.ym ⟨2024, 3⟩)).statuses.items ⟨2024, 3⟩ = none ∧
      lookupA ((SearchCache.extend SearchCache.empty
            [.file ⟨⟨⟨2024, 3, 6⟩, 0⟩, 1⟩, .status ⟨2024, 3, [5]⟩]).trim
          (.ym ⟨2024, 3⟩)).files.items ⟨2024, 3, 6⟩ =
        some ⟨[0], [(0, ⟨⟨⟨2024, 3, 6⟩, 0⟩, 1⟩)]⟩ := by
  decide

/-- C6 (amended): on a duplicate-free cache, `trim(month)` drops the
month's status and every recording on a day listed by that status
(recordings of the month on unlisted days survive, which is what the
counterexample exhibits); `trim(date)` drops that day's recordings and
keeps the statuses; both forms are total functions that leave the cache
unchanged when the key is absent. -/
theorem trim_amended (c : SearchCache) (k : YM) (st : VStatus) (d : Date)
    (hnds : (c.statuses.items.map Prod.fst).Nodup)
    (hndf : (c.files.items.map Prod.fst).Nodup) :
    (lookupA c.statuses.items k = some st →
        lookupA (c.trim (.ym k)).statuses.items k = none ∧
          (c.trim (.ym k)).statuses.keys = rmFirst c.statuses.keys k ∧
          (∀ m : YM, m ≠ k →
            lookupA (c.trim (.ym k)).statuses.items m = lookupA c.statuses.items m) ∧
          (∀ day ∈ st.days, lookupA (c.trim (.ym k)).files.items (k.toDate day) = none) ∧
          (∀ d2 : Date, (∀ day ∈ st.days, k.toDate day ≠ d2) →
            lookupA (c.trim (.ym k)).files.items d2 = lookupA c.files.items d2)) ∧
      (lookupA c.statuses.items k = none → c.trim (.ym k) = c) ∧
      ((c.trim (.date d)).statuses = c.statuses ∧
        lookupA (c.trim (.date d)).files.items d = none ∧
        (∀ d2 : Date, d2 ≠ d →
          lookupA (c.trim (.date d)).files.items d2 = lookupA c.files.items d2)) ∧
      (lookupA c.files.items d = none → c.trim (.date d) = c) := by
  refine ⟨?_, ?_, ?_, ?_⟩
  · intro hlk
    have htrim :
        c.trim (.ym k) =
          ({ c with statuses := ⟨rmFirst c.statuses.keys k, popA c.statuses.items k⟩ }
              : SearchCache).purgeDays k st.days := by
      cases hdays : st.days with
      | nil =>
          simp [SearchCache.trim, SearchCache.statusesPop, hlk, hdays, SearchCache.purgeDays]
      | cons a l =>
          simp [SearchCache.trim, SearchCache.statusesPop, hlk, hdays, SearchCache.purgeDays]
    rw [htrim]
    refine ⟨?_, ?_, ?_, ?_, ?_⟩
    · rw [purgeDays_statuses]
      exact lookupA_popA_self _ _ hnds
    · rw [purgeDays_statuses]
    · intro m hm
      rw [purgeDays_statuses]
      exact lookupA_popA_ne _ _ _ hm
    · intro day hday
      exact lookupA_purgeDays_self _ _ _ _ hday hndf
    · intro d2 hd2
      exact lookupA_purgeDays_ne _ _ _ _ hd2
  · intro hlk
    simp [SearchCache.trim, SearchCache.statusesPop, hlk]
  · refine ⟨delItem_statuses _ _, lookupA_delItem_self _ _ hndf, ?_⟩
    intro d2 hd2
    exact lookupA_delItem_ne _ _ _ hd2
  · intro hlk
    simp [SearchCache.trim, SearchCache.delItem, hlk]

/-- Witness for `trim_amended`: a cache with status 2024-03 → {5} and a
recording on 03-05; trimming the month removes both, trimming the date
keeps the status. -/
theorem trim_amended_wit :
    ((List.map Prod.fst (SearchCache.extend SearchCache.empty
          [.status ⟨2024, 3, [5]⟩, .file ⟨⟨⟨2024, 3, 5⟩, 0⟩, 1⟩]).statuses.items).Nodup ∧
        (List.map Prod.fst (SearchCache.extend SearchCache.empty
          [.status ⟨2024, 3, [5]⟩, .file ⟨⟨⟨2024, 3, 5⟩, 0⟩, 1⟩]).files.items).Nodup) ∧
      lookupA ((SearchCache.extend SearchCache.empty
            [.status ⟨2024, 3, [5]⟩, .file ⟨⟨⟨2024, 3, 5⟩, 0⟩, 1⟩]).trim
          (.ym ⟨2024, 3⟩)).statuses.items ⟨2024, 3⟩ = none ∧
      lookupA ((SearchCache.extend SearchCache.empty
            [.status ⟨2024, 3, [5]⟩, .file ⟨⟨⟨2024, 3, 5⟩, 0⟩, 1⟩]).trim
          (.ym ⟨2024, 3⟩)).files.items ⟨2024, 3, 5⟩ = none ∧
      ((SearchCache.extend SearchCache.empty
            [.status ⟨2024, 3, [5]⟩, .file ⟨⟨⟨2024, 3, 5⟩, 0⟩, 1⟩]).trim
          (.date ⟨2024, 3, 5⟩)).statuses =
        (SearchCache.extend SearchCache.empty
            [.status ⟨2024, 3, [5]⟩, .file ⟨⟨⟨2024, 3, 5⟩, 0⟩, 1⟩]).statuses ∧
      lookupA ((SearchCache.extend SearchCache.empty
            [.status ⟨2024, 3, [5]⟩, .file ⟨⟨⟨2024, 3, 5⟩, 0⟩, 1⟩]).trim
          (.date ⟨2024, 3, 5⟩)).files.items ⟨2024, 3, 5⟩ = none := by
  have h := trim_amended
    (SearchCache.extend SearchCache.empty
      [.status ⟨2024, 3, [5]⟩, .file ⟨⟨⟨2024, 3, 5⟩, 0⟩, 1⟩])
    ⟨2024, 3⟩ ⟨2024, 3, [5]⟩ ⟨2024, 3, 5⟩ (by decide) (by decide)
  have h1 := h.1 (by decide)
  exact ⟨⟨by decide, by decide⟩, h1.1, h1.2.2.2.1 5 (by decide), h.2.2.1.1, h.2.2.1.2.1⟩

/-!
## Per-item effect lemmas used by the merge claims
-/

theorem appendFile_statuses (c : SearchCache) (f : VFile) :
    (c.appendFile f).statuses = c.statuses := rfl

theorem appendFile_at_start (c : SearchCache) (f : VFile) :
    (c.appendFile f).at_start = c.at_start := rfl

theorem appendFile_getDT_self (c : SearchCache) (f : VFile) :
    (c.appendFile f).getDT f.start = some f := by
  rw [SearchCache.getDT]
  simp only [SearchCache.appendFile, lookupA_setA_self]

theorem appendFile_getDT_ne (c : SearchCache) (f : VFile) (k : DT) (h : k ≠ f.start) :
    (c.appendFile f).getDT k = c.getDT k := by
  rw [SearchCache.getDT, SearchCache.getDT]
  by_cases hd : k.date = f.start.date
  · have ht : k.time ≠ f.start.time := by
      intro he
      exact h (by cases k; cases f.start; simp_all)
    simp only [SearchCache.appendFile, hd, lookupA_setA_self]
    cases hl : lookupA c.files.items f.start.date with
    | none =>
        simp only [hl, Option.getD_none]
        show lookupA (setA (ODict.empty (V := VFile)).items f.start.time f) k.time = none
        rw [lookupA_setA_ne _ _ _ _ ht]
        rfl
    | some inner =>
        simp only [hl, Option.getD_some]
        exact lookupA_setA_ne _ _ _ _ ht
  · simp only [SearchCache.appendFile]
    rw [lookupA_setA_ne _ _ _ _ hd]

theorem appendStatus_statuses_lookup_ne (c : SearchCache) (s : VStatus) (m : YM)
    (hm : m ≠ YM.fromStatus s) :
    lookupA (c.appendStatus s).statuses.items m = lookupA c.statuses.items m := by
  unfold SearchCache.appendStatus
  cases hlk : lookupA c.statuses.items (YM.fromStatus s) with
  | none =>
      simp only [hlk]
      exact lookupA_setA_ne _ _ _ _ hm
  | some e =>
      by_cases he : e.days.isEmpty
      · simp only [hlk, he, if_true]
        exact lookupA_setA_ne _ _ _ _ hm
      · by_cases heq : e.days = s.days
        · simp only [hlk]
          rw [if_neg he, if_pos heq]
        · simp only [hlk]
          rw [if_neg he, if_neg heq]
          show lookupA (setA (SearchCache.purgeDays c _ _).statuses.items _ s) m =
            lookupA c.statuses.items m
          rw [lookupA_setA_ne _ _ _ _ hm, purgeDays_statuses]

theorem appendStatus_stored_self (c : SearchCache) (s : VStatus) :
    ∃ e, lookupA (c.appendStatus s).statuses.items (YM.fromStatus s) = some e ∧
      e.days = s.days := by
  unfold SearchCache.appendStatus
  cases hlk : lookupA c.statuses.items (YM.fromStatus s) with
  | none =>
      refine ⟨s, ?_, rfl⟩
      simp only [hlk]
      exact lookupA_setA_self _ _ _
  | some e =>
      by_cases he : e.days.isEmpty
      · refine ⟨s, ?_, rfl⟩
        simp only [hlk, he, if_true]
        exact lookupA_setA_self _ _ _
      · by_cases heq : e.days = s.days
        · refine ⟨e, ?_, heq⟩
          simp only [hlk]
          rw [if_neg he, if_pos heq]
          exact hlk
        · refine ⟨s, ?_, rfl⟩
          simp only [hlk]
          rw [if_neg he, if_neg heq]
          exact lookupA_setA_self _ _ _

theorem appendStatus_files_lookup_pres (c : SearchCache) (s : VStatus) (d : Date)
    (h : d.d ∈ s.days ∨ d.y ≠ s.year ∨ d.m ≠ s.month) :
    lookupA (c.appendStatus s).files.items d = lookupA c.files.items d := by
  unfold SearchCache.appendStatus
  cases hlk : lookupA c.statuses.items (YM.fromStatus s) with
  | none => simp only [hlk]
  | some e =>
      by_cases he : e.days.isEmpty
      · simp only [hlk, he, if_true]
      · by_cases heq : e.days = s.days
        · simp only [hlk]
          rw [if_neg he, if_pos heq]
        · simp only [hlk]
          rw [if_neg he, if_neg heq]
          show lookupA (SearchCache.purgeDays c _ _).files.items d = lookupA c.files.items d
          refine lookupA_purgeDays_ne _ _ _ _ ?_
          intro day2 hday2 heq2
          rw [List.mem_filter] at hday2
          have hnot : day2 ∉ s.days := by simpa using hday2.2
          rcases h with h | h | h
          · exact hnot (by
              have := congrArg Date.d heq2
              simp [YM.toDate] at this
              exact this ▸ h)
          · exact h (by
              have := congrArg Date.y heq2
              simpa [YM.toDate, YM.fromStatus] using this.symm)
          · exact h (by
              have := congrArg Date.m heq2
              simpa [YM.toDate, YM.fromStatus] using this.symm)

theorem appendStatus_getDT_pres (c : SearchCache) (s : VStatus) (k : DT)
    (h : k.date.d ∈ s.days ∨ k.date.y ≠ s.year ∨ k.date.m ≠ s.month) :
    (c.appendStatus s).getDT k = c.getDT k := by
  rw [SearchCache.getDT, SearchCache.getDT, appendStatus_files_lookup_pres c s k.date h]

theorem appendStatus_id_of_stored (c : SearchCache) (s e : VStatus)
    (hlk : lookupA c.statuses.items (YM.fromStatus s) = some e)
    (h1 : e.days = s.days) (h2 : s.days ≠ []) : c.appendStatus s = c := by
  have he : e.days.isEmpty = false := by
    rw [h1]
    cases hs : s.days with
    | nil => exact absurd hs h2
    | cons a l => rfl
  unfold SearchCache.appendStatus
  simp only [hlk]
  rw [if_neg (by rw [he]; exact Bool.false_ne_true), if_pos h1]

theorem appendFile_id_of_getDT (c : SearchCache) (f : VFile)
    (h : c.getDT f.start = some f) : c.appendFile f = c := by
  rcases hd : lookupA c.files.items f.start.date with _ | inner
  · have h2 : (none : Option VFile) = some f := by
      rw [SearchCache.getDT, hd] at h
      exact h
    cases h2
  · have h2 : lookupA inner.items f.start.time = some f := by
      rw [SearchCache.getDT, hd] at h
      exact h
    have hsT : (lookupA inner.items f.start.time).isSome = true := by rw [h2]; rfl
    unfold SearchCache.appendFile
    simp only [hd, Option.getD_some, Option.isSome_some, if_true, hsT, if_pos]
    rw [setA_lookup_self h2]
    rw [setA_lookup_self hd]

/-!
## Batch views and fold invariants
-/

/-- The statuses occurring in a merge batch. -/
def batchStatuses (B : List SItem) : List VStatus :=
  B.filterMap (fun x => match x with | .status s => some s | .file _ => none)

/-- The files occurring in a merge batch. -/
def batchFiles (B : List SItem) : List VFile :=
  B.filterMap (fun x => match x with | .file f => some f | .status _ => none)

theorem batchStatuses_cons_status (s : VStatus) (B : List SItem) :
    batchStatuses (.status s :: B) = s :: batchStatuses B := by
  simp [batchStatuses]

theorem batchStatuses_cons_file (f : VFile) (B : List SItem) :
    batchStatuses (.file f :: B) = batchStatuses B := by
  simp [batchStatuses]

theorem batchFiles_cons_status (s : VStatus) (B : List SItem) :
    batchFiles (.status s :: B) = batchFiles B := by
  simp [batchFiles]

theorem batchFiles_cons_file (f : VFile) (B : List SItem) :
    batchFiles (.file f :: B) = f :: batchFiles B := by
  simp [batchFiles]

theorem extend_cons (c : SearchCache) (x : SItem) (B : List SItem) :
    c.extend (x :: B) = (c.append x).extend B := rfl

/-- A stored status with the given day table survives a batch that holds
no status for its month. -/
theorem extend_stored_pres (B : List SItem) (c : SearchCache) (k : YM) (days : List Nat)
    (h : ∃ e, lookupA c.statuses.items k = some e ∧ e.days = days)
    (hno : ∀ s2 ∈ batchStatuses B, YM.fromStatus s2 ≠ k) :
    ∃ e, lookupA (c.extend B).statuses.items k = some e ∧ e.days = days := by
  induction B generalizing c with
  | nil => exact h
  | cons x rest ih =>
      rw [extend_cons]
      cases x with
      | file f =>
          refine ih _ ?_ (fun s2 hs2 => hno s2 (by rw [batchStatuses_cons_file]; exact hs2))
          rw [show (SearchCache.append c (.file f)) = c.appendFile f from rfl,
            appendFile_statuses]
          exact h
      | status s2 =>
          have hne : k ≠ YM.fromStatus s2 :=
            fun he => hno s2 (by rw [batchStatuses_cons_status]; simp) he.symm
          refine ih _ ?_ (fun s3 hs3 => hno s3 (by rw [batchStatuses_cons_status]; simp [hs3]))
          rw [show (SearchCache.append c (.status s2)) = c.appendStatus s2 from rfl,
            appendStatus_statuses_lookup_ne c s2 k hne]
          exact h

/-- After merging a batch, each month that the batch carries a status for
stores a status with that day table (provided the batch is
month-consistent). -/
theorem extend_stored (B : List SItem) (c : SearchCache) (s : VStatus)
    (hs : s ∈ batchStatuses B)
    (hb : ∀ s1 ∈ batchStatuses B, ∀ s2 ∈ batchStatuses B,
      YM.fromStatus s1 = YM.fromStatus s2 → s1 = s2) :
    ∃ e, lookupA (c.extend B).statuses.items (YM.fromStatus s) = some e ∧
      e.days = s.days := by
  induction B generalizing c with
  | nil => cases hs
  | cons x rest ih =>
      rw [extend_cons]
      by_cases hmem : s ∈ batchStatuses rest
      · refine ih _ hmem ?_
        intro s1 h1 s2 h2 he
        cases x with
        | file f =>
            exact hb s1 (by rw [batchStatuses_cons_file]; exact h1) s2
              (by rw [batchStatuses_cons_file]; exact h2) he
        | status s0 =>
            exact hb s1 (by rw [batchStatuses_cons_status]; simp [h1]) s2
              (by rw [batchStatuses_cons_status]; simp [h2]) he
      · cases x with
        | file f =>
            rw [batchStatuses_cons_file] at hs
            exact absurd hs hmem
        | status s0 =>
            rw [batchStatuses_cons_status] at hs
            rcases List.mem_cons.mp hs with rfl | hs2
            · refine extend_stored_pres rest _ _ _ ?_ ?_
              · exact appendStatus_stored_self c s
              · intro s2 hs2 he
                have : s2 = s := hb s2 (by rw [batchStatuses_cons_status]; simp [hs2]) s
                  (by rw [batchStatuses_cons_status]; simp) he
                subst this
                exact hmem hs2
            · exact absurd hs2 hmem

/-- A cached recording survives a batch holding no other file with its
start and whose statuses for its month list its day. -/
theorem extend_getDT_pres (B : List SItem) (c : SearchCache) (k : DT) (fv : VFile)
    (h : c.getDT k = some fv)
    (hfiles : ∀ f2 ∈ batchFiles B, f2.start = k → f2 = fv)
    (hstat : ∀ s2 ∈ batchStatuses B,
      k.date.d ∈ s2.days ∨ k.date.y ≠ s2.year ∨ k.date.m ≠ s2.month) :
    (c.extend B).getDT k = some fv := by
  induction B generalizing c with
  | nil => exact h
  | cons x rest ih =>
      rw [extend_cons]
      cases x with
      | status s0 =>
          refine ih _ ?_
            (fun f2 h2 he => hfiles f2 (by rw [batchFiles_cons_status]; exact h2) he)
            (fun s2 h2 => hstat s2 (by rw [batchStatuses_cons_status]; simp [h2]))
          rw [show (SearchCache.append c (.status s0)) = c.appendStatus s0 from rfl]
          rw [appendStatus_getDT_pres c s0 k
            (hstat s0 (by rw [batchStatuses_cons_status]; simp))]
          exact h
      | file f0 =>
          refine ih _ ?_
            (fun f2 h2 he => hfiles f2 (by rw [batchFiles_cons_file]; simp [h2]) he)
            (fun s2 h2 => hstat s2 (by rw [batchStatuses_cons_file]; exact h2))
          rw [show (SearchCache.append c (.file f0)) = c.appendFile f0 from rfl]
          by_cases hf0 : f0.start = k
          · have : f0 = fv := hfiles f0 (by rw [batchFiles_cons_file]; simp) hf0
            subst this
            rw [← hf0]
            exact appendFile_getDT_self c f0
          · rw [appendFile_getDT_ne c f0 k (fun he => hf0 he.symm)]
            exact h

/-- After merging a batch with pairwise distinct file starts whose days
are listed by every same-month batch status, each batch file is cached
under its start. -/
theorem extend_file_stored (B : List SItem) (c : SearchCache) (f : VFile)
    (hf : f ∈ batchFiles B)
    (hc : ∀ f2 ∈ batchFiles B, ∀ s2 ∈ batchStatuses B,
      f2.start.date.y = s2.year → f2.start.date.m = s2.month → f2.start.date.d ∈ s2.days)
    (hd : ∀ f1 ∈ batchFiles B, ∀ f2 ∈ batchFiles B, f1.start = f2.start → f1 = f2) :
    (c.extend B).getDT f.start = some f := by
  induction B generalizing c with
  | nil => cases hf
  | cons x rest ih =>
      rw [extend_cons]
      by_cases hmem : f ∈ batchFiles rest
      · refine ih _ hmem ?_ ?_
        · intro f2 h2 s2 h3 hy hm
          cases x with
          | file f0 =>
              exact hc f2 (by rw [batchFiles_cons_file]; simp [h2]) s2
                (by rw [batchStatuses_cons_file]; exact h3) hy hm
          | status s0 =>
              exact hc f2 (by rw [batchFiles_cons_status]; exact h2) s2
                (by rw [batchStatuses_cons_status]; simp [h3]) hy hm
        · intro f1 h1 f2 h2 he
          cases x with
          | file f0 =>
              exact hd f1 (by rw [batchFiles_cons_file]; simp [h1]) f2
                (by rw [batchFiles_cons_file]; simp [h2]) he
          | status s0 =>
              exact hd f1 (by rw [batchFiles_cons_status]; exact h1) f2
                (by rw [batchFiles_cons_status]; exact h2) he
      · cases x with
        | status s0 =>
            rw [batchFiles_cons_status] at hf
            exact absurd hf hmem
        | file f0 =>
            rw [batchFiles_cons_file] at hf
            rcases List.mem_cons.mp hf with rfl | hf2
            · refine extend_getDT_pres rest _ _ _ ?_ ?_ ?_
              · rw [show (SearchCache.append c (.file f)) = c.appendFile f from rfl]
                exact appendFile_getDT_self c f
              · intro f2 h2 he
                exact hd f2 (by rw [batchFiles_cons_file]; simp [h2]) f
                  (by rw [batchFiles_cons_file]; simp) he
              · intro s2 h2
                by_cases hy : f.start.date.y = s2.year
                · by_cases hm : f.start.date.m = s2.month
                  · exact Or.inl (hc f (by rw [batchFiles_cons_file]; simp) s2
                      (by rw [batchStatuses_cons_file]; exact h2) hy hm)
                  · exact Or.inr (Or.inr hm)
                · exact Or.inr (Or.inl hy)
            · exact absurd hf2 hmem

/-- Folding a batch over a state on which every single append is the
identity is itself the identity. -/
theorem extend_id_of_append_id (B : List SItem) (c : SearchCache)
    (h : ∀ x ∈ B, c.append x = c) : c.extend B = c := by
  induction B with
  | nil => rfl
  | cons x rest ih =>
      rw [extend_cons, h x (by simp)]
      exact ih (fun y hy => h y (by simp [hy]))

/-!
## Claim C2: merge idempotence
-/

/-- C2 counterexample: merging the batch `[status 2024-01 with empty
day table]` twice is observably different from merging it once.  The
second `append` finds the stored status falsy (`Sequence` with length
0), takes the `else` branch, and `bisect.insort`s a duplicate month key:
the key list becomes `[2024-01, 2024-01]`, and `SearchCache.__eq__`
(which compares `_keys`) distinguishes the two states. -/
theorem merge_twice_empty_status_ce :
    (SearchCache.extend SearchCache.empty [.status ⟨2024, 1, []⟩]).statuses.keys =
        [⟨2024, 1⟩] ∧
      ((SearchCache.extend SearchCache.empty [.status ⟨2024, 1, []⟩]).extend
            [.status ⟨2024, 1, []⟩]).statuses.keys =
        [⟨2024, 1⟩, ⟨2024, 1⟩] ∧
      SearchCache.pyEqB
          ((SearchCache.extend SearchCache.empty [.status ⟨2024, 1, []⟩]).extend
            [.status ⟨2024, 1, []⟩])
          (SearchCache.extend SearchCache.empty [.status ⟨2024, 1, []⟩]) = false := by
  decide

/-- C2 (amended): merging the same batch twice leaves the cache exactly
as merging it once, provided the batch is benign: every status has a
nonempty day table (the counterexample shows an empty one breaks
idempotence), statuses for the same month agree, files with the same
start agree, and every file's day is listed by every same-month status
of the batch. -/
theorem merge_idempotent_amended (c : SearchCache) (B : List SItem)
    (ha : ∀ s ∈ batchStatuses B, s.days ≠ [])
    (hb : ∀ s1 ∈ batchStatuses B, ∀ s2 ∈ batchStatuses B,
      YM.fromStatus s1 = YM.fromStatus s2 → s1 = s2)
    (hc : ∀ f2 ∈ batchFiles B, ∀ s2 ∈ batchStatuses B,
      f2.start.date.y = s2.year → f2.start.date.m = s2.month → f2.start.date.d ∈ s2.days)
    (hd : ∀ f1 ∈ batchFiles B, ∀ f2 ∈ batchFiles B, f1.start = f2.start → f1 = f2) :
    (c.extend B).extend B = c.extend B := by
  refine extend_id_of_append_id B (c.extend B) ?_
  intro x hx
  cases x with
  | status s =>
      have hsmem : s ∈ batchStatuses B := by
        rw [batchStatuses]
        exact List.mem_filterMap.mpr ⟨.status s, hx, rfl⟩
      obtain ⟨e, hlk, hdays⟩ := extend_stored B c s hsmem hb
      exact appendStatus_id_of_stored _ s e hlk hdays (ha s hsmem)
  | file f =>
      have hfmem : f ∈ batchFiles B := by
        rw [batchFiles]
        exact List.mem_filterMap.mpr ⟨.file f, hx, rfl⟩
      exact appendFile_id_of_getDT _ f (extend_file_stored B c f hfmem hc hd)

/-- Witness for `merge_idempotent_amended`: a batch with one nonempty
status and one matching file really is idempotent. -/
theorem merge_idempotent_amended_wit :
    (∀ s ∈ batchStatuses [.status ⟨2024, 3, [1, 2]⟩, .file ⟨⟨⟨2024, 3, 1⟩, 60⟩, 7⟩],
        s.days ≠ []) ∧
      ((SearchCache.extend SearchCache.empty
            [.status ⟨2024, 3, [1, 2]⟩, .file ⟨⟨⟨2024, 3, 1⟩, 60⟩, 7⟩]).extend
          [.status ⟨2024, 3, [1, 2]⟩, .file ⟨⟨⟨2024, 3, 1⟩, 60⟩, 7⟩]) =
        SearchCache.extend SearchCache.empty
          [.status ⟨2024, 3, [1, 2]⟩, .file ⟨⟨⟨2024, 3, 1⟩, 60⟩, 7⟩] := by
  refine ⟨by decide, ?_⟩
  exact merge_idempotent_amended SearchCache.empty
    [.status ⟨2024, 3, [1, 2]⟩, .file ⟨⟨⟨2024, 3, 1⟩, 60⟩, 7⟩]
    (by decide) (by decide) (by decide) (by decide)

/-!
## Preservation of the ordering invariant
-/

theorem mem_setA {K V : Type} [DecidableEq K] {l : List (K × V)} {k : K} {v : V} {p : K × V}
    (h : p ∈ setA l k v) : p = (k, v) ∨ p ∈ l := by
  induction l with
  | nil => simpa [setA] using h
  | cons q rest ih =>
      by_cases hq : q.1 = k
      · rcases List.mem_cons.mp (by simpa [setA, hq] using h) with h2 | h2
        · exact Or.inl h2
        · exact Or.inr (by simp [h2])
      · rcases List.mem_cons.mp (by simpa [setA, hq] using h) with h2 | h2
        · exact Or.inr (by simp [h2])
        · rcases ih h2 with h3 | h3
          · exact Or.inl h3
          · exact Or.inr (by simp [h3])

theorem popA_sublist {K V : Type} [DecidableEq K] (l : List (K × V)) (k : K) :
    List.Sublist (popA l k) l := by
  induction l with
  | nil => simp [popA]
  | cons q rest ih =>
      by_cases hq : q.1 = k
      · simp [popA, hq]
      · simpa [popA, hq] using List.Sublist.cons₂ q ih

theorem ODict.WF_setA_present {K V : Type} [DecidableEq K] {lt : K → K → Bool}
    {d : ODict K V} (hwf : ODict.WF lt d) {k : K} (v : V)
    (hk : (lookupA d.items k).isSome = true) :
    ODict.WF lt ⟨d.keys, setA d.items k v⟩ := by
  obtain ⟨h1, h2, h3, h4⟩ := hwf
  refine ⟨h1, ?_, ?_, ?_⟩
  · intro k2 hk2
    by_cases he : k2 = k
    · subst he
      rw [lookupA_setA_self]
      rfl
    · rw [lookupA_setA_ne _ _ _ _ he]
      exact h2 k2 hk2
  · intro p hp
    rcases mem_setA hp with rfl | hp2
    · show k ∈ d.keys
      have := (lookupA_isSome_iff d.items k).mp hk
      rcases List.mem_map.mp this with ⟨q, hq, hq2⟩
      exact hq2 ▸ h3 q hq
    · exact h3 p hp2
  · rw [mapFst_setA_isSome _ _ _ hk]
    exact h4

theorem ODict.WF_insert {K V : Type} [DecidableEq K] {lt : K → K → Bool}
    (htrans : ∀ a b c, lt a b = true → lt b c = true → lt a c = true)
    (htotal : ∀ a b : K, a ≠ b → lt a b = true ∨ lt b a = true)
    {d : ODict K V} (hwf : ODict.WF lt d) {k : K} (v : V)
    (hk : lookupA d.items k = none) :
    ODict.WF lt ⟨insortBy lt k d.keys, setA d.items k v⟩ := by
  obtain ⟨h1, h2, h3, h4⟩ := hwf
  have hknotin : k ∉ d.keys := by
    intro hmem
    have := h2 k hmem
    rw [hk] at this
    cases this
  refine ⟨?_, ?_, ?_, ?_⟩
  · rw [sortedB_iff_pwlt lt htrans] at h1 ⊢
    exact pwlt_insortBy lt htrans htotal h1 hknotin
  · intro k2 hk2
    rcases (mem_insortBy lt k k2 d.keys).mp hk2 with rfl | hk3
    · rw [lookupA_setA_self]
      rfl
    · have hne : k2 ≠ k := fun he => hknotin (he ▸ hk3)
      rw [lookupA_setA_ne _ _ _ _ hne]
      exact h2 k2 hk3
  · intro p hp
    rcases mem_setA hp with rfl | hp2
    · exact (mem_insortBy lt k k d.keys).mpr (Or.inl rfl)
    · exact (mem_insortBy lt k p.1 d.keys).mpr (Or.inr (h3 p hp2))
  · rw [mapFst_setA_none _ _ _ hk]
    refine List.Nodup.append h4 (by simp) ?_
    intro a ha hb
    simp at hb
    subst hb
    exact ((lookupA_none_iff d.items a).mp hk) ha

theorem ODict.WF_remove {K V : Type} [DecidableEq K] {lt : K → K → Bool}
    (htrans : ∀ a b c, lt a b = true → lt b c = true → lt a c = true)
    (hirr : ∀ a, lt a a = false)
    {d : ODict K V} (hwf : ODict.WF lt d) (k : K) :
    ODict.WF lt ⟨rmFirst d.keys k, popA d.items k⟩ := by
  obtain ⟨h1, h2, h3, h4⟩ := hwf
  have hknodup : d.keys.Nodup :=
    pwlt_nodup hirr ((sortedB_iff_pwlt lt htrans d.keys).mp h1)
  refine ⟨?_, ?_, ?_, ?_⟩
  · rw [sortedB_iff_pwlt lt htrans] at h1 ⊢
    exact h1.sublist (rmFirst_sublist _ _)
  · intro k2 hk2
    have hne : k2 ≠ k := by
      intro he
      subst he
      exact not_mem_rmFirst_of_nodup hknodup hk2
    have hmem : k2 ∈ d.keys := (mem_rmFirst_ne hne).mp hk2
    show (lookupA (popA d.items k) k2).isSome = true
    rw [lookupA_popA_ne _ _ _ hne]
    exact h2 k2 hmem
  · intro p hp
    have hpl : p ∈ d.items := (popA_sublist d.items k).mem hp
    have hne : p.1 ≠ k := by
      intro he
      have hmem2 : p.1 ∈ (popA d.items k).map Prod.fst := List.mem_map.mpr ⟨p, hp, rfl⟩
      rw [mapFst_popA, he] at hmem2
      exact not_mem_rmFirst_of_nodup h4 (he ▸ hmem2)
    exact (mem_rmFirst_ne hne).mpr (h3 p hpl)
  · rw [mapFst_popA]
    exact h4.sublist (rmFirst_sublist _ _)


theorem lookupA_mem {K V : Type} [DecidableEq K] {l : List (K × V)} {k : K} {v : V}
    (h : lookupA l k = some v) : (k, v) ∈ l := by
  induction l with
  | nil => cases h
  | cons q rest ih =>
      by_cases hq : q.1 = k
      · rw [lookupA, if_pos hq] at h
        cases h
        exact List.mem_cons.mpr (Or.inl (by rw [← hq]))
      · rw [lookupA, if_neg hq] at h
        exact List.mem_cons.mpr (Or.inr (ih h))

theorem setA_ne_nil {K V : Type} [DecidableEq K] (l : List (K × V)) (k : K) (v : V) :
    setA l k v ≠ [] := by
  cases l with
  | nil => simp [setA]
  | cons q rest =>
      by_cases hq : q.1 = k <;> simp [setA, hq]

/-- The order facts with the comparison function fully applied, for
passing to the generic `ODict` lemmas. -/
theorem dateLtbTrans : ∀ a b c : Date,
    Date.ltb a b = true → Date.ltb b c = true → Date.ltb a c = true :=
  fun _ _ _ h1 h2 => dateLtb_trans2 h1 h2

theorem dateLtbTotal : ∀ a b : Date, a ≠ b →
    Date.ltb a b = true ∨ Date.ltb b a = true :=
  fun _ _ h => dateLtb_total2 h

theorem ymLtbTrans : ∀ a b c : YM,
    YM.ltb a b = true → YM.ltb b c = true → YM.ltb a c = true :=
  fun _ _ _ h1 h2 => YM.ltb_trans h1 h2

theorem ymLtbTotal : ∀ a b : YM, a ≠ b → YM.ltb a b = true ∨ YM.ltb b a = true :=
  fun _ _ h => YM.ltb_total h

theorem natLtbTrans : ∀ a b c : Nat,
    natLtb a b = true → natLtb b c = true → natLtb a c = true :=
  fun _ _ _ h1 h2 => natLtb_trans h1 h2

theorem natLtbTotal : ∀ a b : Nat, a ≠ b → natLtb a b = true ∨ natLtb b a = true :=
  fun _ _ h => natLtb_total h

theorem delItem_eq_of_none (c : SearchCache) (k : Date)
    (hd : lookupA c.files.items k = none) : c.delItem k = c := by
  unfold SearchCache.delItem
  simp only [hd]

theorem delItem_eq_of_some (c : SearchCache) (k : Date) (inner : ODict Nat VFile)
    (hd : lookupA c.files.items k = some inner) (hne : inner.items.isEmpty = false) :
    c.delItem k =
      ⟨c.statuses, ⟨rmFirst c.files.keys k, popA c.files.items k⟩,
        c.at_start, c.at_end⟩ := by
  unfold SearchCache.delItem
  simp only [hd, hne, Bool.false_eq_true, if_false]

theorem WFc_delItem (c : SearchCache) (k : Date) (hwf : c.WFc) : (c.delItem k).WFc := by
  obtain ⟨hst, hf, hin⟩ := hwf
  cases hd : lookupA c.files.items k with
  | none =>
      rw [delItem_eq_of_none c k hd]
      exact ⟨hst, hf, hin⟩
  | some inner =>
      have hmem := lookupA_mem hd
      have hne : inner.items.isEmpty = false := by
        cases hi : inner.items with
        | nil => exact absurd hi (hin _ hmem).2
        | cons a l => rfl
      rw [delItem_eq_of_some c k inner hd hne]
      refine ⟨hst, ODict.WF_remove dateLtbTrans dateLtb_irrefl hf k, ?_⟩
      intro p hp
      exact hin p ((popA_sublist c.files.items k).mem hp)

theorem WFc_purgeDays (c : SearchCache) (k : YM) (days : List Nat) (hwf : c.WFc) :
    (c.purgeDays k days).WFc := by
  induction days generalizing c with
  | nil => exact hwf
  | cons day rest ih =>
      unfold SearchCache.purgeDays at *
      simp only [List.foldl_cons]
      exact ih _ (WFc_delItem _ _ hwf)

/-- A one-entry per-day dict is well formed. -/
theorem WF_singletonOD (t : Nat) (f : VFile) :
    ODict.WF natLtb (⟨[t], [(t, f)]⟩ : ODict Nat VFile) := by
  refine ⟨rfl, ?_, ?_, by simp⟩
  · intro k2 hk2
    have : k2 = t := by simpa using hk2
    subst this
    simp [lookupA]
  · intro p hp
    have : p = (t, f) := by simpa using hp
    subst this
    simp

theorem appendFile_eq_of_none (c : SearchCache) (f : VFile)
    (hd : lookupA c.files.items f.start.date = none) :
    c.appendFile f =
      ⟨c.statuses,
        ⟨insortBy Date.ltb f.start.date c.files.keys,
          setA c.files.items f.start.date ⟨[f.start.time], [(f.start.time, f)]⟩⟩,
        c.at_start, c.at_end⟩ := by
  unfold SearchCache.appendFile
  simp only [hd, Option.isSome_none, Bool.false_eq_true, if_false, Option.getD_none]
  show SearchCache.mk _ ⟨_, setA c.files.items f.start.date
    ⟨insortBy natLtb f.start.time (ODict.empty (V := VFile)).keys,
      setA (ODict.empty (V := VFile)).items f.start.time f⟩⟩ _ _ = _
  simp [ODict.empty, insortBy, setA, lookupA]

theorem appendFile_eq_of_some (c : SearchCache) (f : VFile) (inner : ODict Nat VFile)
    (hd : lookupA c.files.items f.start.date = some inner) :
    c.appendFile f =
      ⟨c.statuses,
        ⟨c.files.keys,
          setA c.files.items f.start.date
            ⟨if (lookupA inner.items f.start.time).isSome = true then inner.keys
              else insortBy natLtb f.start.time inner.keys,
              setA inner.items f.start.time f⟩⟩,
        c.at_start, c.at_end⟩ := by
  unfold SearchCache.appendFile
  simp only [hd, Option.isSome_some, if_true, Option.getD_some]

theorem WFc_appendFile (c : SearchCache) (f : VFile) (hwf : c.WFc) :
    (c.appendFile f).WFc := by
  obtain ⟨hst, hf, hin⟩ := hwf
  cases hd : lookupA c.files.items f.start.date with
  | none =>
      rw [appendFile_eq_of_none c f hd]
      refine ⟨hst, ODict.WF_insert dateLtbTrans dateLtbTotal hf _ hd, ?_⟩
      intro p hp
      rcases mem_setA hp with rfl | hp2
      · exact ⟨WF_singletonOD f.start.time f, by simp⟩
      · exact hin p hp2
  | some inner =>
      have hmemI := lookupA_mem hd
      have hiwf := (hin _ hmemI).1
      have hdS : (lookupA c.files.items f.start.date).isSome = true := by
        rw [hd]; rfl
      rw [appendFile_eq_of_some c f inner hd]
      refine ⟨hst, ODict.WF_setA_present hf _ hdS, ?_⟩
      intro p hp
      rcases mem_setA hp with rfl | hp2
      · refine ⟨?_, setA_ne_nil _ _ _⟩
        cases ht : lookupA inner.items f.start.time with
        | none =>
            simp only [ht, Option.isSome_none, Bool.false_eq_true, if_false]
            exact ODict.WF_insert natLtbTrans natLtbTotal hiwf _ ht
        | some f0 =>
            have htS : (lookupA inner.items f.start.time).isSome = true := by
              rw [ht]; rfl
            simp only [ht, Option.isSome_some, if_true]
            exact ODict.WF_setA_present hiwf _ htS
      · exact hin p hp2

theorem WFc_appendStatus (c : SearchCache) (s : VStatus) (hwf : c.WFc)
    (hok : ∀ e, lookupA c.statuses.items (YM.fromStatus s) = some e → e.days ≠ []) :
    (c.appendStatus s).WFc := by
  obtain ⟨hst, hf, hin⟩ := hwf
  unfold SearchCache.appendStatus
  cases hlk : lookupA c.statuses.items (YM.fromStatus s) with
  | none =>
      simp only [hlk]
      exact ⟨ODict.WF_insert ymLtbTrans ymLtbTotal hst _ hlk, hf, hin⟩
  | some e =>
      have hene : e.days ≠ [] := hok e hlk
      have he : e.days.isEmpty = false := by
        cases hi : e.days with
        | nil => exact absurd hi hene
        | cons a l => rfl
      simp only [hlk]
      rw [if_neg (by rw [he]; exact Bool.false_ne_true)]
      by_cases heq : e.days = s.days
      · rw [if_pos heq]
        exact ⟨hst, hf, hin⟩
      · rw [if_neg heq]
        obtain ⟨hst1, hf1, hin1⟩ := WFc_purgeDays c (YM.fromStatus s)
          (e.days.filter (fun day => !s.days.contains day)) ⟨hst, hf, hin⟩
        refine ⟨?_, hf1, hin1⟩
        have hlk1 : (lookupA (c.purgeDays (YM.fromStatus s)
            (e.days.filter (fun day => !s.days.contains day))).statuses.items
            (YM.fromStatus s)).isSome = true := by
          rw [purgeDays_statuses, hlk]
          rfl
        exact ODict.WF_setA_present hst1 _ hlk1

theorem trim_ym_eq (c : SearchCache) (m : YM) (st : VStatus)
    (hlk : lookupA c.statuses.items m = some st) :
    c.trim (.ym m) =
      (SearchCache.mk ⟨rmFirst c.statuses.keys m, popA c.statuses.items m⟩
        c.files c.at_start c.at_end).purgeDays m st.days := by
  cases hdays : st.days with
  | nil => simp [SearchCache.trim, SearchCache.statusesPop, hlk, hdays, SearchCache.purgeDays]
  | cons a l => simp [SearchCache.trim, SearchCache.statusesPop, hlk, hdays, SearchCache.purgeDays]

theorem trim_ym_eq_none (c : SearchCache) (m : YM)
    (hlk : lookupA c.statuses.items m = none) : c.trim (.ym m) = c := by
  simp [SearchCache.trim, SearchCache.statusesPop, hlk]

theorem WFc_trim (c : SearchCache) (k : TrimKey) (hwf : c.WFc) : (c.trim k).WFc := by
  cases k with
  | date d => exact WFc_delItem c d hwf
  | ym m =>
      obtain ⟨hst, hf, hin⟩ := hwf
      cases hlk : lookupA c.statuses.items m with
      | none =>
          rw [trim_ym_eq_none c m hlk]
          exact ⟨hst, hf, hin⟩
      | some st =>
          rw [trim_ym_eq c m st hlk]
          refine WFc_purgeDays _ _ _ ?_
          exact ⟨ODict.WF_remove ymLtbTrans YM.ltb_irrefl hst m, hf, hin⟩

/-!
## Iteration order from the invariant
-/

theorem mem_catMap {A B : Type} {f : A → List B} {l : List A} {x : B} :
    x ∈ catMap f l ↔ ∃ a ∈ l, x ∈ f a := by
  induction l with
  | nil =>
      show x ∈ ([] : List B) ↔ _
      simp
  | cons a rest ih =>
      show x ∈ f a ++ catMap f rest ↔ _
      rw [List.mem_append, ih]
      constructor
      · rintro (h | ⟨a2, h2, h3⟩)
        · exact ⟨a, by simp, h⟩
        · exact ⟨a2, by simp [h2], h3⟩
      · rintro ⟨a2, h2, h3⟩
        rcases List.mem_cons.mp h2 with rfl | h4
        · exact Or.inl h3
        · exact Or.inr ⟨a2, h4, h3⟩

theorem catMap_append {A B : Type} (f : A → List B) (l1 l2 : List A) :
    catMap f (l1 ++ l2) = catMap f l1 ++ catMap f l2 := by
  induction l1 with
  | nil => rfl
  | cons a rest ih =>
      show f a ++ catMap f (rest ++ l2) = (f a ++ catMap f rest) ++ catMap f l2
      rw [ih, List.append_assoc]

theorem map_reverse_eq {A B : Type} (f : A → B) (l : List A) :
    (l.map f).reverse = l.reverse.map f := by
  induction l with
  | nil => rfl
  | cons a rest ih =>
      rw [List.map_cons, List.reverse_cons, ih, List.reverse_cons, List.map_append]
      rfl

theorem catMap_reverse {A B : Type} (f : A → List B) (l : List A) :
    (catMap f l).reverse = catMap (fun a => (f a).reverse) l.reverse := by
  induction l with
  | nil => rfl
  | cons a rest ih =>
      show (f a ++ catMap f rest).reverse =
        catMap (fun a => (f a).reverse) (a :: rest).reverse
      rw [List.reverse_cons, List.reverse_append, ih, catMap_append]
      show _ ++ (f a).reverse = _ ++ ((f a).reverse ++ catMap _ [])
      rw [show catMap (fun a => (f a).reverse) ([] : List A) = [] from rfl,
        List.append_nil]

theorem pwlt_catMap_blocks (keys : List Date) (blocks : Date → List DT)
    (hk : PwLt Date.ltb keys)
    (hin : ∀ d ∈ keys, PwLt DT.ltb (blocks d))
    (hdates : ∀ d ∈ keys, ∀ x ∈ blocks d, x.date = d) :
    PwLt DT.ltb (catMap blocks keys) := by
  induction keys with
  | nil => exact List.Pairwise.nil
  | cons d rest ih =>
      have hk2 := List.pairwise_cons.mp hk
      show List.Pairwise _ (blocks d ++ catMap blocks rest)
      rw [List.pairwise_append]
      refine ⟨hin d (by simp), ih hk2.2 (fun d2 h2 => hin d2 (by simp [h2]))
        (fun d2 h2 => hdates d2 (by simp [h2])), ?_⟩
      intro x hx y hy
      obtain ⟨d2, hd2, hyd2⟩ := mem_catMap.mp hy
      have hxd : x.date = d := hdates d (by simp) x hx
      have hyd : y.date = d2 := hdates d2 (by simp [hd2]) y hyd2
      rw [dtLtb_iff]
      exact Or.inl (by rw [hxd, hyd]; exact hk2.1 d2 hd2)

theorem iter_pwlt (c : SearchCache) (hwf : c.WFc) : PwLt DT.ltb c.iterKeys := by
  obtain ⟨hst, hf, hin⟩ := hwf
  refine pwlt_catMap_blocks c.files.keys _ ?_ ?_ ?_
  · exact (sortedB_iff_pwlt Date.ltb dateLtbTrans c.files.keys).mp hf.1
  · intro d hd
    cases hlk : lookupA c.files.items d with
    | none => simp [PwLt]
    | some inner =>
        have hiwf := (hin _ (lookupA_mem hlk)).1
        show List.Pairwise _ (inner.keys.map (fun t => DT.mk d t))
        rw [List.pairwise_map]
        have hp := (sortedB_iff_pwlt natLtb natLtbTrans inner.keys).mp hiwf.1
        refine hp.imp ?_
        intro a b hab
        rw [dtLtb_iff]
        exact Or.inr ⟨rfl, by simpa [natLtb] using hab⟩
  · intro d hd x hx
    cases hlk : lookupA c.files.items d with
    | none => rw [hlk] at hx; cases hx
    | some inner =>
        rw [hlk] at hx
        obtain ⟨t, _, rfl⟩ := List.mem_map.mp hx
        rfl

theorem revIter_eq_reverse (c : SearchCache) :
    c.revIterKeys = c.iterKeys.reverse := by
  rw [SearchCache.revIterKeys, SearchCache.iterKeys, catMap_reverse]
  refine congrArg (fun g => catMap g c.files.keys.reverse) ?_
  funext d
  cases hlk : lookupA c.files.items d with
  | none =>
      simp only [hlk]
      rfl
  | some inner =>
      simp only [hlk]
      exact (map_reverse_eq _ inner.keys).symm

/-!
## Extending with a benign batch keeps the invariant
-/

/-- Every stored status has a nonempty day table (all statuses that the
calendar walks store satisfy this, and it is exactly what protects
`append` from the duplicate-key `else` branch). -/
def SearchCache.NES (c : SearchCache) : Prop :=
  ∀ k e, lookupA c.statuses.items k = some e → e.days ≠ []

theorem NES_of_items (c : SearchCache)
    (h : ∀ p ∈ c.statuses.items, p.2.days ≠ []) : c.NES :=
  fun k e hlk => h (k, e) (lookupA_mem hlk)

theorem NES_appendFile (c : SearchCache) (f : VFile) (h : c.NES) :
    (c.appendFile f).NES := by
  intro k e hlk
  rw [show (c.appendFile f).statuses = c.statuses from rfl] at hlk
  exact h k e hlk

theorem NES_appendStatus (c : SearchCache) (s : VStatus) (h : c.NES)
    (hs : s.days ≠ []) : (c.appendStatus s).NES := by
  intro k e hlk
  by_cases hk : k = YM.fromStatus s
  · subst hk
    obtain ⟨e2, hl2, hd2⟩ := appendStatus_stored_self c s
    rw [hl2] at hlk
    cases hlk
    rw [hd2]
    exact hs
  · rw [appendStatus_statuses_lookup_ne c s k hk] at hlk
    exact h k e hlk

theorem WFc_extend (B : List SItem) (c : SearchCache) (hwf : c.WFc) (hnes : c.NES)
    (hb : ∀ s ∈ batchStatuses B, s.days ≠ []) :
    (c.extend B).WFc ∧ (c.extend B).NES := by
  induction B generalizing c with
  | nil => exact ⟨hwf, hnes⟩
  | cons x rest ih =>
      rw [extend_cons]
      cases x with
      | file f =>
          exact ih _ (WFc_appendFile c f hwf) (NES_appendFile c f hnes)
            (fun s2 h2 => hb s2 (by rw [batchStatuses_cons_file]; exact h2))
      | status s =>
          have hs0 : s.days ≠ [] := hb s (by rw [batchStatuses_cons_status]; simp)
          exact ih _ (WFc_appendStatus c s hwf (fun e hl => hnes _ e hl))
            (NES_appendStatus c s hnes hs0)
            (fun s2 h2 => hb s2 (by rw [batchStatuses_cons_status]; simp [h2]))

/-!
## Claim C9: the ordering invariant
-/

/-- C9 counterexample: appending the same empty-day status twice breaks
the invariant.  After the first append the cache is well formed; the
second append finds the stored status falsy, takes the `else` branch and
`insort`s the month key again, so the key list `[2024-01, 2024-01]` is
no longer strictly ascending (nor in bijection with the dict). -/
theorem ordinv_broken_ce :
    (SearchCache.empty.appendStatus ⟨2024, 1, []⟩).WFc ∧
      ((SearchCache.empty.appendStatus ⟨2024, 1, []⟩).appendStatus
          ⟨2024, 1, []⟩).statuses.keys = [⟨2024, 1⟩, ⟨2024, 1⟩] ∧
      ¬ ((SearchCache.empty.appendStatus ⟨2024, 1, []⟩).appendStatus
          ⟨2024, 1, []⟩).WFc := by
  decide

/-- C9 (amended): every cache operation preserves the ordering invariant
(strictly ascending key lists listing exactly the stored months, dates
and times), except that appending a status for a month whose stored
status has an empty day table duplicates the month key (the
counterexample); under the proviso that such appends do not occur —
`hok` for a single append, nonempty stored and batch statuses for
`extend` — `append`, `extend` and `trim` preserve the invariant, and on
any invariant-satisfying cache forward iteration is strictly
chronological and reversed iteration is its exact reverse. -/
theorem ordinv_amended :
    (∀ (c : SearchCache) (f : VFile), c.WFc → (c.appendFile f).WFc) ∧
      (∀ (c : SearchCache) (s : VStatus), c.WFc →
        (∀ e, lookupA c.statuses.items (YM.fromStatus s) = some e → e.days ≠ []) →
        (c.appendStatus s).WFc) ∧
      (∀ (c : SearchCache) (k : TrimKey), c.WFc → (c.trim k).WFc) ∧
      (∀ (c : SearchCache) (B : List SItem), c.WFc → c.NES →
        (∀ s ∈ batchStatuses B, s.days ≠ []) → (c.extend B).WFc) ∧
      (∀ c : SearchCache, c.WFc → PwLt DT.ltb c.iterKeys) ∧
      (∀ c : SearchCache, c.revIterKeys = c.iterKeys.reverse) := by
  refine ⟨WFc_appendFile, WFc_appendStatus, WFc_trim, ?_, iter_pwlt, revIter_eq_reverse⟩
  intro c B hwf hnes hb
  exact (WFc_extend B c hwf hnes hb).1

/-- Witness for `ordinv_amended` on a concrete cache: one status with a
day, one file; appending a second file and extending with a benign batch
keep the invariant, and iteration is sorted. -/
theorem ordinv_amended_wit :
    (SearchCache.extend SearchCache.empty
        [.status ⟨2024, 1, [2, 3]⟩, .file ⟨⟨⟨2024, 1, 2⟩, 5⟩, 1⟩]).WFc ∧
      ((SearchCache.extend SearchCache.empty
          [.status ⟨2024, 1, [2, 3]⟩, .file ⟨⟨⟨2024, 1, 2⟩, 5⟩, 1⟩]).appendFile
        ⟨⟨⟨2024, 1, 3⟩, 9⟩, 2⟩).WFc ∧
      ((SearchCache.extend SearchCache.empty
          [.status ⟨2024, 1, [2, 3]⟩, .file ⟨⟨⟨2024, 1, 2⟩, 5⟩, 1⟩]).extend
        [.status ⟨2024, 2, [7]⟩, .file ⟨⟨⟨2024, 2, 7⟩, 4⟩, 3⟩]).WFc ∧
      PwLt DT.ltb (SearchCache.extend SearchCache.empty
        [.status ⟨2024, 1, [2, 3]⟩, .file ⟨⟨⟨2024, 1, 2⟩, 5⟩, 1⟩]).iterKeys ∧
      (SearchCache.extend SearchCache.empty
          [.status ⟨2024, 1, [2, 3]⟩, .file ⟨⟨⟨2024, 1, 2⟩, 5⟩, 1⟩]).revIterKeys =
        (SearchCache.extend SearchCache.empty
          [.status ⟨2024, 1, [2, 3]⟩, .file ⟨⟨⟨2024, 1, 2⟩, 5⟩, 1⟩]).iterKeys.reverse := by
  refine ⟨by decide, ?_, ?_, ?_, ?_⟩
  · exact ordinv_amended.1 _ ⟨⟨⟨2024, 1, 3⟩, 9⟩, 2⟩ (by decide)
  · exact ordinv_amended.2.2.2.1 _ [.status ⟨2024, 2, [7]⟩, .file ⟨⟨⟨2024, 2, 7⟩, 4⟩, 3⟩]
      (by decide) (NES_of_items _ (by decide)) (by decide)
  · exact ordinv_amended.2.2.2.2.1 _ (by decide)
  · exact ordinv_amended.2.2.2.2.2 _

/-!
## The key lists of well-formed dicts are determined by the lookups
-/

theorem ltb_asym_of {K : Type} {lt : K → K → Bool}
    (htrans : ∀ a b c, lt a b = true → lt b c = true → lt a c = true)
    (hirr : ∀ a, lt a a = false) {a b : K}
    (h1 : lt a b = true) (h2 : lt b a = true) : False := by
  have := htrans a b a h1 h2
  rw [hirr a] at this
  cases this

theorem pwlt_ext {K : Type} {lt : K → K → Bool}
    (htrans : ∀ a b c, lt a b = true → lt b c = true → lt a c = true)
    (hirr : ∀ a, lt a a = false) :
    ∀ {l1 l2 : List K}, PwLt lt l1 → PwLt lt l2 →
      (∀ x, x ∈ l1 ↔ x ∈ l2) → l1 = l2 := by
  intro l1
  induction l1 with
  | nil =>
      intro l2 _ _ hmem
      cases l2 with
      | nil => rfl
      | cons b t2 => exact absurd ((hmem b).mpr (by simp)) (by simp)
  | cons a t1 ih =>
      intro l2 h1 h2 hmem
      cases l2 with
      | nil => exact absurd ((hmem a).mp (by simp)) (by simp)
      | cons b t2 =>
          have hp1 := List.pairwise_cons.mp h1
          have hp2 := List.pairwise_cons.mp h2
          have hab : a = b := by
            by_contra hne
            have ha2 : a ∈ b :: t2 := (hmem a).mp (by simp)
            have hb1 : b ∈ a :: t1 := (hmem b).mpr (by simp)
            rcases List.mem_cons.mp ha2 with h3 | h3
            · exact hne h3
            · rcases List.mem_cons.mp hb1 with h4 | h4
              · exact hne h4.symm
              · exact ltb_asym_of htrans hirr (hp1.1 b h4) (hp2.1 a h3)
          subst hab
          have ht : t1 = t2 := by
            refine ih hp1.2 hp2.2 ?_
            intro x
            constructor
            · intro hx
              have hxa : x ≠ a := by
                intro he
                subst he
                have hc := hp1.1 x hx
                rw [hirr] at hc
                cases hc
              rcases List.mem_cons.mp ((hmem x).mp (by simp [hx])) with h3 | h3
              · exact absurd h3 hxa
              · exact h3
            · intro hx
              have hxa : x ≠ a := by
                intro he
                subst he
                have hc := hp2.1 x hx
                rw [hirr] at hc
                cases hc
              rcases List.mem_cons.mp ((hmem x).mpr (by simp [hx])) with h3 | h3
              · exact absurd h3 hxa
              · exact h3
          rw [ht]

theorem ODict.keys_eq_of_wf {K V : Type} [DecidableEq K] {lt : K → K → Bool}
    (htrans : ∀ a b c, lt a b = true → lt b c = true → lt a c = true)
    (hirr : ∀ a, lt a a = false)
    {d1 d2 : ODict K V} (h1 : ODict.WF lt d1) (h2 : ODict.WF lt d2)
    (hiso : ∀ k, (lookupA d1.items k).isSome = (lookupA d2.items k).isSome) :
    d1.keys = d2.keys := by
  refine pwlt_ext htrans hirr ((sortedB_iff_pwlt lt htrans _).mp h1.1)
    ((sortedB_iff_pwlt lt htrans _).mp h2.1) ?_
  intro k
  have hm1 : k ∈ d1.keys ↔ (lookupA d1.items k).isSome = true := by
    constructor
    · exact h1.2.1 k
    · intro hs
      rcases List.mem_map.mp ((lookupA_isSome_iff d1.items k).mp hs) with ⟨p, hp, hpk⟩
      exact hpk ▸ h1.2.2.1 p hp
  have hm2 : k ∈ d2.keys ↔ (lookupA d2.items k).isSome = true := by
    constructor
    · exact h2.2.1 k
    · intro hs
      rcases List.mem_map.mp ((lookupA_isSome_iff d2.items k).mp hs) with ⟨p, hp, hpk⟩
      exact hpk ▸ h2.2.2.1 p hp
  rw [hm1, hm2, hiso k]

theorem innerLookRel_isSome {o1 o2 : Option (ODict Nat VFile)}
    (h : innerLookRel o1 o2) : o1.isSome = o2.isSome := by
  cases o1 <;> cases o2 <;> first | rfl | cases h

/-- On well-formed caches with the same flags, agreement of all lookups
already forces full observable equality: the key lists of a well-formed
dict are the strictly sorted enumeration of its stored keys. -/
theorem obsEq_of_wf (c1 c2 : SearchCache) (h1 : c1.WFc) (h2 : c2.WFc)
    (hs : ∀ k, lookupA c1.statuses.items k = lookupA c2.statuses.items k)
    (hf : ∀ d, innerLookRel (lookupA c1.files.items d) (lookupA c2.files.items d))
    (ha : c1.at_start = c2.at_start) (he : c1.at_end = c2.at_end) :
    c1.obsEq c2 := by
  obtain ⟨hst1, hf1, hin1⟩ := h1
  obtain ⟨hst2, hf2, hin2⟩ := h2
  refine ⟨?_, hs, ?_, ?_, ha, he⟩
  · exact ODict.keys_eq_of_wf ymLtbTrans YM.ltb_irrefl hst1 hst2
      (fun k => by rw [hs k])
  · exact ODict.keys_eq_of_wf dateLtbTrans dateLtb_irrefl hf1 hf2
      (fun d => innerLookRel_isSome (hf d))
  · intro d
    have hrel := hf d
    cases hl1 : lookupA c1.files.items d with
    | none =>
        cases hl2 : lookupA c2.files.items d with
        | none => exact trivial
        | some i2 =>
            rw [hl1, hl2] at hrel
            cases hrel
    | some i1 =>
        cases hl2 : lookupA c2.files.items d with
        | none =>
            rw [hl1, hl2] at hrel
            cases hrel
        | some i2 =>
            rw [hl1, hl2] at hrel
            refine ⟨?_, hrel⟩
            exact ODict.keys_eq_of_wf natLtbTrans natLtb_irrefl
              ((hin1 _ (lookupA_mem hl1)).1) ((hin2 _ (lookupA_mem hl2)).1)
              (fun t => by rw [hrel t])

/-!
## Lookup-level characterization of the two appends
-/

theorem appendFile_files_lookup_ne (c : SearchCache) (f : VFile) (dd : Date)
    (h : dd ≠ f.start.date) :
    lookupA (c.appendFile f).files.items dd = lookupA c.files.items dd := by
  show lookupA (setA c.files.items f.start.date _) dd = _
  exact lookupA_setA_ne _ _ _ _ h

/-- The per-day dict `append` writes for a file, as a function of the old
optional per-day dict. -/
def updInner (o : Option (ODict Nat VFile)) (t : Nat) (f : VFile) : ODict Nat VFile :=
  let inner := o.getD ODict.empty
  ⟨if (lookupA inner.items t).isSome = true then inner.keys
    else insortBy natLtb t inner.keys,
    setA inner.items t f⟩

theorem appendFile_files_lookup_self (c : SearchCache) (f : VFile) :
    lookupA (c.appendFile f).files.items f.start.date =
      some (updInner (lookupA c.files.items f.start.date) f.start.time f) := by
  show lookupA (setA c.files.items f.start.date _) _ = _
  rw [lookupA_setA_self]
  rfl

theorem appendStatus_at_start (c : SearchCache) (s : VStatus) :
    (c.appendStatus s).at_start = c.at_start := by
  cases hlk : lookupA c.statuses.items (YM.fromStatus s) with
  | none => simp only [SearchCache.appendStatus, hlk]
  | some e =>
      simp only [SearchCache.appendStatus, hlk]
      by_cases he : e.days.isEmpty = true
      · rw [if_pos he]
      · rw [if_neg he]
        by_cases heq : e.days = s.days
        · rw [if_pos heq]
        · rw [if_neg heq]
          exact purgeDays_at_start _ _ _

theorem appendStatus_at_end (c : SearchCache) (s : VStatus) :
    (c.appendStatus s).at_end = c.at_end := by
  cases hlk : lookupA c.statuses.items (YM.fromStatus s) with
  | none => simp only [SearchCache.appendStatus, hlk]
  | some e =>
      simp only [SearchCache.appendStatus, hlk]
      by_cases he : e.days.isEmpty = true
      · rw [if_pos he]
      · rw [if_neg he]
        by_cases heq : e.days = s.days
        · rw [if_pos heq]
        · rw [if_neg heq]
          exact purgeDays_at_end _ _ _

/-- What `append` leaves stored for the status's own month, as a function
of what was stored before. -/
theorem appendStatus_statuses_lookup_self_eq (c : SearchCache) (s : VStatus) :
    lookupA (c.appendStatus s).statuses.items (YM.fromStatus s) =
      (match lookupA c.statuses.items (YM.fromStatus s) with
        | some e =>
            if e.days.isEmpty = true then some s
            else if e.days = s.days then some e
            else some s
        | none => some s) := by
  cases hlk : lookupA c.statuses.items (YM.fromStatus s) with
  | none =>
      simp only [SearchCache.appendStatus, hlk]
      exact lookupA_setA_self _ _ _
  | some e =>
      simp only [SearchCache.appendStatus, hlk]
      by_cases he : e.days.isEmpty = true
      · rw [if_pos he, if_pos he]
        exact lookupA_setA_self _ _ _
      · rw [if_neg he, if_neg he]
        by_cases heq : e.days = s.days
        · rw [if_pos heq, if_pos heq]
          exact hlk
        · rw [if_neg heq, if_neg heq]
          show lookupA (setA (c.purgeDays _ _).statuses.items _ s) _ = some s
          exact lookupA_setA_self _ _ _

theorem appendStatus_files_none_stored (c : SearchCache) (s : VStatus)
    (hlk : lookupA c.statuses.items (YM.fromStatus s) = none) :
    (c.appendStatus s).files = c.files := by
  unfold SearchCache.appendStatus
  simp only [hlk]

theorem appendStatus_files_lookup_purged (c : SearchCache) (s e : VStatus)
    (hlk : lookupA c.statuses.items (YM.fromStatus s) = some e)
    (hene : e.days ≠ []) (hneq : e.days ≠ s.days) (day : Nat)
    (hday : day ∈ e.days) (hnot : day ∉ s.days)
    (hnodup : (c.files.items.map Prod.fst).Nodup) :
    lookupA (c.appendStatus s).files.items ((YM.fromStatus s).toDate day) = none := by
  have he : e.days.isEmpty = false := by
    cases hi : e.days with
    | nil => exact absurd hi hene
    | cons a l => rfl
  unfold SearchCache.appendStatus
  simp only [hlk]
  rw [if_neg (by rw [he]; exact Bool.false_ne_true), if_neg hneq]
  show lookupA (c.purgeDays _ _).files.items _ = none
  refine lookupA_purgeDays_self _ _ _ _ ?_ hnodup
  simp [List.mem_filter, hday, hnot]

theorem appendStatus_files_lookup_pres2 (c : SearchCache) (s e : VStatus)
    (hlk : lookupA c.statuses.items (YM.fromStatus s) = some e)
    (d : Date) (hdd : d.d ∉ e.days) :
    lookupA (c.appendStatus s).files.items d = lookupA c.files.items d := by
  unfold SearchCache.appendStatus
  simp only [hlk]
  by_cases he : e.days.isEmpty
  · simp only [he, if_true]
  · rw [if_neg he]
    by_cases heq : e.days = s.days
    · rw [if_pos heq]
    · rw [if_neg heq]
      show lookupA (c.purgeDays _ _).files.items d = lookupA c.files.items d
      refine lookupA_purgeDays_ne _ _ _ _ ?_
      intro day2 hday2 heq2
      rw [List.mem_filter] at hday2
      exact hdd (by
        have := congrArg Date.d heq2
        simp [YM.toDate] at this
        exact this ▸ hday2.1)

theorem innerLookRel_refl (o : Option (ODict Nat VFile)) : innerLookRel o o := by
  cases o with
  | none => exact trivial
  | some i => exact fun t => rfl

/-- Two file appends with different start instants commute observably. -/
theorem commFF (c : SearchCache) (f1 f2 : VFile) (hwf : c.WFc)
    (hne : f1.start ≠ f2.start) :
    ((c.appendFile f1).appendFile f2).obsEq ((c.appendFile f2).appendFile f1) := by
  refine obsEq_of_wf _ _
    (WFc_appendFile _ f2 (WFc_appendFile _ f1 hwf))
    (WFc_appendFile _ f1 (WFc_appendFile _ f2 hwf))
    (fun k => rfl) ?_ rfl rfl
  intro d
  by_cases hd1 : d = f1.start.date
  · by_cases hd2 : d = f2.start.date
    · have hdd : f1.start.date = f2.start.date := hd1 ▸ hd2
      have ht : f1.start.time ≠ f2.start.time := by
        intro he
        exact hne (by
          cases hf1 : f1.start
          cases hf2 : f2.start
          rw [hf1, hf2] at hdd he
          simp only at hdd he
          rw [hdd, he])
      have hP : lookupA ((c.appendFile f1).appendFile f2).files.items d =
          some (updInner (some (updInner (lookupA c.files.items d) f1.start.time f1))
            f2.start.time f2) := by
        rw [hd2, appendFile_files_lookup_self (c.appendFile f1) f2, ← hdd,
          appendFile_files_lookup_self c f1]
      have hQ : lookupA ((c.appendFile f2).appendFile f1).files.items d =
          some (updInner (some (updInner (lookupA c.files.items d) f2.start.time f2))
            f1.start.time f1) := by
        rw [hd1, appendFile_files_lookup_self (c.appendFile f2) f1, hdd,
          appendFile_files_lookup_self c f2]
      rw [hP, hQ]
      intro t
      show lookupA (setA (setA ((lookupA c.files.items d).getD ODict.empty).items
          f1.start.time f1) f2.start.time f2) t =
        lookupA (setA (setA ((lookupA c.files.items d).getD ODict.empty).items
          f2.start.time f2) f1.start.time f1) t
      by_cases ht1 : t = f1.start.time
      · subst ht1
        rw [lookupA_setA_ne _ _ _ _ ht, lookupA_setA_self, lookupA_setA_self]
      · by_cases ht2 : t = f2.start.time
        · subst ht2
          rw [lookupA_setA_self, lookupA_setA_ne _ _ _ _ (fun he => ht he.symm),
            lookupA_setA_self]
        · rw [lookupA_setA_ne _ _ _ _ ht2, lookupA_setA_ne _ _ _ _ ht1,
            lookupA_setA_ne _ _ _ _ ht1, lookupA_setA_ne _ _ _ _ ht2]
    · subst hd1
      rw [appendFile_files_lookup_ne _ f2 _ hd2, appendFile_files_lookup_self c f1,
        appendFile_files_lookup_self (c.appendFile f2) f1,
        appendFile_files_lookup_ne c f2 _ hd2]
      exact innerLookRel_refl _
  · by_cases hd2 : d = f2.start.date
    · subst hd2
      rw [appendFile_files_lookup_self (c.appendFile f1) f2,
        appendFile_files_lookup_ne c f1 _ hd1, appendFile_files_lookup_ne _ f1 _ hd1,
        appendFile_files_lookup_self c f2]
      exact innerLookRel_refl _
    · rw [appendFile_files_lookup_ne _ f2 _ hd2, appendFile_files_lookup_ne c f1 _ hd1,
        appendFile_files_lookup_ne _ f1 _ hd1, appendFile_files_lookup_ne c f2 _ hd2]
      exact innerLookRel_refl _

/-- The file-index effect of appending a status is a function of what the
pre-state stores for that month and at the queried date. -/
theorem status_effect_file_lookup_eq (c X : SearchCache) (s : VStatus) (d : Date)
    (hstat : lookupA X.statuses.items (YM.fromStatus s) =
      lookupA c.statuses.items (YM.fromStatus s))
    (hfile : lookupA X.files.items d = lookupA c.files.items d)
    (hnodc : (c.files.items.map Prod.fst).Nodup)
    (hnodX : (X.files.items.map Prod.fst).Nodup)
    (hnz : ∀ e, lookupA c.statuses.items (YM.fromStatus s) = some e → e.days ≠ []) :
    lookupA (X.appendStatus s).files.items d =
      lookupA (c.appendStatus s).files.items d := by
  rcases hlk : lookupA c.statuses.items (YM.fromStatus s) with _ | e
  · rw [appendStatus_files_none_stored c s hlk,
      appendStatus_files_none_stored X s (by rw [hstat, hlk]), hfile]
  · have hene := hnz e hlk
    by_cases heq : e.days = s.days
    · have hsne : s.days ≠ [] := heq ▸ hene
      rw [appendStatus_id_of_stored c s e hlk heq hsne,
        appendStatus_id_of_stored X s e (by rw [hstat, hlk]) heq hsne, hfile]
    · by_cases hdm : d.y = s.year ∧ d.m = s.month
      · by_cases hdc : d.d ∈ e.days ∧ d.d ∉ s.days
        · have hdate : d = (YM.fromStatus s).toDate d.d := by
            obtain ⟨h1, h2⟩ := hdm
            cases d
            simp only [YM.toDate, YM.fromStatus]
            simp_all
          rw [hdate,
            appendStatus_files_lookup_purged c s e hlk hene heq _ hdc.1 hdc.2 hnodc,
            appendStatus_files_lookup_purged X s e (by rw [hstat, hlk]) hene heq _
              hdc.1 hdc.2 hnodX]
        · by_cases hds : d.d ∈ s.days
          · rw [appendStatus_files_lookup_pres c s d (Or.inl hds),
              appendStatus_files_lookup_pres X s d (Or.inl hds), hfile]
          · have hde : d.d ∉ e.days := fun hin => hdc ⟨hin, hds⟩
            rw [appendStatus_files_lookup_pres2 c s e hlk d hde,
              appendStatus_files_lookup_pres2 X s e (by rw [hstat, hlk]) d hde, hfile]
      · have hor : d.y ≠ s.year ∨ d.m ≠ s.month := by tauto
        rw [appendStatus_files_lookup_pres c s d (Or.inr hor),
          appendStatus_files_lookup_pres X s d (Or.inr hor), hfile]

/-- Two status appends for different months, over a well-formed cache
whose stored statuses are all nonempty, commute observably. -/
theorem commSS (c : SearchCache) (s1 s2 : VStatus) (hwf : c.WFc) (hnes : c.NES)
    (h1 : s1.days ≠ []) (h2 : s2.days ≠ [])
    (hk : YM.fromStatus s1 ≠ YM.fromStatus s2) :
    ((c.appendStatus s1).appendStatus s2).obsEq
      ((c.appendStatus s2).appendStatus s1) := by
  have hwf1 : (c.appendStatus s1).WFc :=
    WFc_appendStatus c s1 hwf (fun e hl => hnes _ e hl)
  have hwf2 : (c.appendStatus s2).WFc :=
    WFc_appendStatus c s2 hwf (fun e hl => hnes _ e hl)
  have hnes1 : (c.appendStatus s1).NES := NES_appendStatus c s1 hnes h1
  have hnes2 : (c.appendStatus s2).NES := NES_appendStatus c s2 hnes h2
  refine obsEq_of_wf _ _
    (WFc_appendStatus _ s2 hwf1 (fun e hl => hnes1 _ e hl))
    (WFc_appendStatus _ s1 hwf2 (fun e hl => hnes2 _ e hl))
    ?_ ?_ ?_ ?_
  · intro k
    by_cases hk1 : k = YM.fromStatus s1
    · subst hk1
      rw [appendStatus_statuses_lookup_ne _ s2 _ hk,
        appendStatus_statuses_lookup_self_eq c s1,
        appendStatus_statuses_lookup_self_eq (c.appendStatus s2) s1,
        appendStatus_statuses_lookup_ne c s2 _ hk]
    · by_cases hk2 : k = YM.fromStatus s2
      · subst hk2
        rw [appendStatus_statuses_lookup_self_eq (c.appendStatus s1) s2,
          appendStatus_statuses_lookup_ne c s1 _ (Ne.symm hk),
          appendStatus_statuses_lookup_ne _ s1 _ (Ne.symm hk),
          appendStatus_statuses_lookup_self_eq c s2]
      · rw [appendStatus_statuses_lookup_ne _ s2 _ hk2,
          appendStatus_statuses_lookup_ne c s1 _ hk1,
          appendStatus_statuses_lookup_ne _ s1 _ hk1,
          appendStatus_statuses_lookup_ne c s2 _ hk2]
  · intro d
    have hnodc : (c.files.items.map Prod.fst).Nodup := hwf.2.1.2.2.2
    have hnod1 : ((c.appendStatus s1).files.items.map Prod.fst).Nodup := hwf1.2.1.2.2.2
    have hnod2 : ((c.appendStatus s2).files.items.map Prod.fst).Nodup := hwf2.2.1.2.2.2
    by_cases hm2 : d.y = s2.year ∧ d.m = s2.month
    · have hm1 : d.y ≠ s1.year ∨ d.m ≠ s1.month := by
        have : s1.year ≠ s2.year ∨ s1.month ≠ s2.month := by
          by_contra hcc
          push_neg at hcc
          exact hk (by
            show YM.mk s1.year s1.month = YM.mk s2.year s2.month
            rw [hcc.1, hcc.2])
        rcases this with h | h
        · exact Or.inl (by rw [hm2.1]; exact fun he => h he.symm)
        · exact Or.inr (by rw [hm2.2]; exact fun he => h he.symm)
      rw [appendStatus_files_lookup_pres _ s1 d (Or.inr hm1)]
      rw [status_effect_file_lookup_eq c (c.appendStatus s1) s2 d
        (appendStatus_statuses_lookup_ne c s1 _ (Ne.symm hk))
        (appendStatus_files_lookup_pres c s1 d (Or.inr hm1)) hnodc hnod1
        (fun e hl => hnes _ e hl)]
      exact innerLookRel_refl _
    · have hm2or : d.y ≠ s2.year ∨ d.m ≠ s2.month := by tauto
      rw [appendStatus_files_lookup_pres _ s2 d (Or.inr hm2or)]
      rw [status_effect_file_lookup_eq c (c.appendStatus s2) s1 d
        (appendStatus_statuses_lookup_ne c s2 _ hk)
        (appendStatus_files_lookup_pres c s2 d (Or.inr hm2or)) hnodc hnod2
        (fun e hl => hnes _ e hl)]
      exact innerLookRel_refl _
  · rw [appendStatus_at_start, appendStatus_at_start, appendStatus_at_start,
      appendStatus_at_start]
  · rw [appendStatus_at_end, appendStatus_at_end, appendStatus_at_end,
      appendStatus_at_end]

/-- A status append and a file append for a different month commute
observably. -/
theorem commSF (c : SearchCache) (s : VStatus) (f : VFile) (hwf : c.WFc) (hnes : c.NES)
    (hm : YM.fromDate f.start.date ≠ YM.fromStatus s) :
    ((c.appendStatus s).appendFile f).obsEq ((c.appendFile f).appendStatus s) := by
  have hwfS : (c.appendStatus s).WFc :=
    WFc_appendStatus c s hwf (fun e hl => hnes _ e hl)
  have hwfF : (c.appendFile f).WFc := WFc_appendFile c f hwf
  have hnesF : (c.appendFile f).NES := NES_appendFile c f hnes
  refine obsEq_of_wf _ _
    (WFc_appendFile _ f hwfS)
    (WFc_appendStatus _ s hwfF (fun e hl => hnesF _ e hl))
    ?_ ?_ ?_ ?_
  · intro k
    rw [show ((c.appendStatus s).appendFile f).statuses = (c.appendStatus s).statuses
      from rfl]
    by_cases hk : k = YM.fromStatus s
    · subst hk
      rw [appendStatus_statuses_lookup_self_eq c s,
        appendStatus_statuses_lookup_self_eq (c.appendFile f) s,
        show (c.appendFile f).statuses = c.statuses from rfl]
    · rw [appendStatus_statuses_lookup_ne c s _ hk,
        appendStatus_statuses_lookup_ne _ s _ hk,
        show (c.appendFile f).statuses = c.statuses from rfl]
  · intro d
    have hord : ∀ d2 : Date, d2 = f.start.date → d2.y ≠ s.year ∨ d2.m ≠ s.month := by
      intro d2 hd2
      by_contra hcc
      push_neg at hcc
      exact hm (by
        show YM.mk f.start.date.y f.start.date.m = YM.mk s.year s.month
        rw [← hd2, hcc.1, hcc.2])
    by_cases hdf : d = f.start.date
    · have hor := hord d hdf
      subst hdf
      rw [appendFile_files_lookup_self (c.appendStatus s) f,
        appendStatus_files_lookup_pres c s _ (Or.inr hor),
        appendStatus_files_lookup_pres _ s _ (Or.inr hor),
        appendFile_files_lookup_self c f]
      exact innerLookRel_refl _
    · rw [appendFile_files_lookup_ne _ f _ hdf]
      rw [status_effect_file_lookup_eq c (c.appendFile f) s d
        (by rw [show (c.appendFile f).statuses = c.statuses from rfl])
        (appendFile_files_lookup_ne c f d hdf)
        hwf.2.1.2.2.2 hwfF.2.1.2.2.2 (fun e hl => hnes _ e hl)]
      exact innerLookRel_refl _
  · rw [show ((c.appendStatus s).appendFile f).at_start = (c.appendStatus s).at_start
      from rfl, appendStatus_at_start, appendStatus_at_start,
      show (c.appendFile f).at_start = c.at_start from rfl]
  · rw [show ((c.appendStatus s).appendFile f).at_end = (c.appendStatus s).at_end
      from rfl, appendStatus_at_end, appendStatus_at_end,
      show (c.appendFile f).at_end = c.at_end from rfl]

theorem obsEq_symm {c1 c2 : SearchCache} (h : c1.obsEq c2) : c2.obsEq c1 := by
  obtain ⟨h1, h2, h3, h4, h5, h6⟩ := h
  refine ⟨h1.symm, fun k => (h2 k).symm, h3.symm, ?_, h5.symm, h6.symm⟩
  intro d
  have hd := h4 d
  cases hl1 : lookupA c1.files.items d with
  | none =>
      cases hl2 : lookupA c2.files.items d with
      | none => exact trivial
      | some i2 => rw [hl1, hl2] at hd; cases hd
  | some i1 =>
      cases hl2 : lookupA c2.files.items d with
      | none => rw [hl1, hl2] at hd; cases hd
      | some i2 =>
          rw [hl1, hl2] at hd
          exact ⟨hd.1.symm, fun t => (hd.2 t).symm⟩

/-- Two cache updates that do not target the same month or the same start
instant: statuses carry nonempty day tables, two statuses are for
different months, a file and a status are for different months, two
files have different starts. -/
def NonInterfering : SItem → SItem → Prop
  | .status s1, .status s2 =>
      s1.days ≠ [] ∧ s2.days ≠ [] ∧ YM.fromStatus s1 ≠ YM.fromStatus s2
  | .status s, .file f => s.days ≠ [] ∧ YM.fromDate f.start.date ≠ YM.fromStatus s
  | .file f, .status s => s.days ≠ [] ∧ YM.fromDate f.start.date ≠ YM.fromStatus s
  | .file f1, .file f2 => f1.start ≠ f2.start

instance (x y : SItem) : Decidable (NonInterfering x y) := by
  cases x <;> cases y <;> (unfold NonInterfering; infer_instance)

/-!
## Claim C5: merge order-independence
-/

/-- C5 counterexample: merging batch A = [status 2024-01 days {1}] and
batch B = [status 2024-01 days {1, 2}] in the two orders ends with
different stored statuses for 2024-01 (last write wins), so merge is not
order-independent for arbitrary batches. -/
theorem merge_order_ce :
    lookupA ((SearchCache.extend SearchCache.empty
            [.status ⟨2024, 1, [1]⟩]).extend
          [.status ⟨2024, 1, [1, 2]⟩]).statuses.items ⟨2024, 1⟩ =
        some ⟨2024, 1, [1, 2]⟩ ∧
      lookupA ((SearchCache.extend SearchCache.empty
            [.status ⟨2024, 1, [1, 2]⟩]).extend
          [.status ⟨2024, 1, [1]⟩]).statuses.items ⟨2024, 1⟩ =
        some ⟨2024, 1, [1]⟩ ∧
      SearchCache.pyEqB
          ((SearchCache.extend SearchCache.empty
            [.status ⟨2024, 1, [1]⟩]).extend [.status ⟨2024, 1, [1, 2]⟩])
          ((SearchCache.extend SearchCache.empty
            [.status ⟨2024, 1, [1, 2]⟩]).extend [.status ⟨2024, 1, [1]⟩]) = false := by
  decide

/-- C5 (amended): merge is order-independent for non-interfering updates.
On a well-formed cache whose stored statuses all have nonempty day
tables, appending two updates that do not touch the same month or the
same start instant yields the same observable cache state in either
order, so interleaved merges of such updates converge.  (For updates
that do conflict — two statuses for one month with different day sets,
or two files with one start — the counterexample shows the final state
depends on the order.) -/
theorem merge_commute_amended (c : SearchCache) (x y : SItem)
    (hwf : c.WFc) (hnes : c.NES) (hni : NonInterfering x y) :
    ((c.append x).append y).obsEq ((c.append y).append x) := by
  cases x with
  | status s1 =>
      cases y with
      | status s2 =>
          obtain ⟨h1, h2, hk⟩ := hni
          exact commSS c s1 s2 hwf hnes h1 h2 hk
      | file f =>
          obtain ⟨h1, hm⟩ := hni
          exact commSF c s1 f hwf hnes hm
  | file f =>
      cases y with
      | status s =>
          obtain ⟨h1, hm⟩ := hni
          exact obsEq_symm (commSF c s f hwf hnes hm)
      | file f2 =>
          exact commFF c f f2 hwf hni

/-- Witness for `merge_commute_amended`: a status for 2024-05 and a file
on 2024-06-02 commute on a concrete well-formed cache. -/
theorem merge_commute_amended_wit :
    (SearchCache.extend SearchCache.empty
        [.status ⟨2024, 4, [9]⟩, .file ⟨⟨⟨2024, 4, 9⟩, 30⟩, 1⟩]).WFc ∧
      NonInterfering (.status ⟨2024, 5, [1]⟩) (.file ⟨⟨⟨2024, 6, 2⟩, 10⟩, 3⟩) ∧
      (((SearchCache.extend SearchCache.empty
            [.status ⟨2024, 4, [9]⟩, .file ⟨⟨⟨2024, 4, 9⟩, 30⟩, 1⟩]).append
          (.status ⟨2024, 5, [1]⟩)).append (.file ⟨⟨⟨2024, 6, 2⟩, 10⟩, 3⟩)).obsEq
        (((SearchCache.extend SearchCache.empty
            [.status ⟨2024, 4, [9]⟩, .file ⟨⟨⟨2024, 4, 9⟩, 30⟩, 1⟩]).append
          (.file ⟨⟨⟨2024, 6, 2⟩, 10⟩, 3⟩)).append (.status ⟨2024, 5, [1]⟩)) := by
  refine ⟨by decide, by decide, ?_⟩
  exact merge_commute_amended _ (.status ⟨2024, 5, [1]⟩) (.file ⟨⟨⟨2024, 6, 2⟩, 10⟩, 3⟩)
    (by decide) (NES_of_items _ (by decide)) (by decide)
